import Mathlib

/-!
Verification development for the `di-container` dependency-injection engine.

The definitions below are a shallow embedding of the resolution engine:

* `Context` resolution machinery from `src/Context.ts` is embedded as a fueled
  interpreter over an explicit state (`St`): `resolveF`, `doResolveF`,
  `resolveRegisteredF`, `resolveWithErrorHandlingF`, `runFProgF`
  (invocation of a user factory, deep-embedded as an `FProg` program),
  and `executeDelayedF`.
* `Container` registry bookkeeping from `Container` (registrations, parent
  merge, backup/restore) is embedded as pure functions over a `Container` tree.
* JavaScript runtime values are embedded as `Value` with explicit truthiness,
  mirroring the truthiness-based checks in the source; JS exceptions are the
  `JsError` type, and every interpreter function returns the outcome
  together with the post-state (JS exceptions do not roll back state).

Service keys are taken to be strings (`stringifyServiceKey` on a string key is
`String(key)`, i.e. the key itself); the claims under study are key-agnostic.
-/

namespace DiContainer

/-- JS-like runtime values. Object references are identified by an allocation
id drawn from a monotone counter, so reference identity is id equality. -/
inductive Value where
  | vNull
  | vBool (b : Bool)
  | vNum (n : Int)
  | vStr (s : String)
  | vObj (id : Nat)
deriving DecidableEq, Repr

/-- JS truthiness of a value (`undefined` on an optional slot is modelled by
`Option.none` at the use sites). -/
def Value.truthy : Value → Bool
  | .vNull => false
  | .vBool b => b
  | .vNum n => n != 0
  | .vStr s => s != ""
  | .vObj _ => true

/-- An entry of the resolution stack: `{ service, name }` (TS `NamedServiceKey`). -/
structure NamedKey where
  service : String
  name : String
deriving DecidableEq, Repr

/-- `stringifyServiceKey` for string keys: `String(key)` is the key itself. -/
def stringifyServiceKey (key : String) : String := key

/-- Stringification used by `checkForCircularDependency`:
`` `${stringifyServiceKey(entry.service)}[${entry.name}]` ``. -/
def stringifyEntry (entry : NamedKey) : String :=
  stringifyServiceKey entry.service ++ "[" ++ entry.name ++ "]"

/-- JS errors thrown by the engine or by user factories.
`resolutionError` embeds the `ServiceResolutionError` class (message,
captured resolution stack, cause). -/
inductive JsError where
  | typeError (msg : String)
  | rangeError (msg : String)
  | genericError (msg : String)
  | userError (tag : Nat)
  | resolutionError (msg : String) (stack : List NamedKey) (cause : JsError)
deriving DecidableEq, Repr

/-- The `e instanceof ServiceResolutionError` test. -/
def JsError.isSRE : JsError → Bool
  | .resolutionError _ _ _ => true
  | _ => false

/-- Service lifecycles. -/
inductive Lifecycle where
  | transient
  | singleton
  | request
deriving DecidableEq, Repr

/-- Deep embedding of a user-supplied factory (or delayed-callback) body.
A factory may resolve dependencies, enqueue delayed callbacks, throw, and
finally either produce a fresh object or a constant value. -/
inductive FProg where
  | retFresh
  | retConst (v : Value)
  | throwE (e : JsError)
  | seqResolve (key : String) (name : Option String) (k : FProg)
  | seqDelay (cid : Nat) (cb : FProg) (k : FProg)
deriving DecidableEq, Repr

/-- A program (and every callback it enqueues) throws no `ServiceResolutionError`
of its own. -/
def FProg.noSRE : FProg → Bool
  | .retFresh => true
  | .retConst _ => true
  | .throwE e => !e.isSRE
  | .seqResolve _ _ k => k.noSRE
  | .seqDelay _ cb k => cb.noSRE && k.noSRE

/-- The program terminates (when it terminates normally) by allocating and
returning a fresh object. -/
def FProg.terminalFresh : FProg → Bool
  | .retFresh => true
  | .retConst _ => false
  | .throwE _ => false
  | .seqResolve _ _ k => k.terminalFresh
  | .seqDelay _ _ k => k.terminalFresh

/-- Service registration record (TS `ServiceRegistration`). `instVal` is the
`instance` field (a Lean keyword forbids the original name). -/
structure Registration where
  name : String
  instVal : Option Value
  factory : Option FProg
  lifecycle : Lifecycle
deriving DecidableEq, Repr

/-- The immutable part of a registration (everything except the cached
`instance` slot). -/
def Registration.sig (r : Registration) : String × Option FProg × Lifecycle :=
  (r.name, r.factory, r.lifecycle)

/-- The registry: a `Map<ServiceKey, ServiceRegistration[]>`, embedded as an
insertion-ordered association list with unique keys. -/
abbrev RegMap := List (String × List Registration)

/-- `Map.get`. -/
def RegMap.get (m : RegMap) (key : String) : Option (List Registration) :=
  (m.find? (fun p => p.1 == key)).map (fun p => p.2)

/-- `Map.set`: overwrites in place if the key exists, appends otherwise. -/
def RegMap.set (m : RegMap) (key : String) (v : List Registration) : RegMap :=
  if m.any (fun p => p.1 == key) then
    m.map (fun p => if p.1 == key then (key, v) else p)
  else m ++ [(key, v)]

/-- `Map.delete`. -/
def RegMap.del (m : RegMap) (key : String) : RegMap :=
  m.filter (fun p => !(p.1 == key))

/-- A record of the context's `resolved` storage: `{ name, service }`. -/
structure ResolvedRecord where
  name : String
  service : Value
deriving DecidableEq, Repr

/-- The context's `resolved` storage: `Map<ServiceKey, {name, service}[]>`. -/
abbrev ResolvedMap := List (String × List ResolvedRecord)

/-- `Context.findInResolved`: looks the key up, finds the named record, and
returns `(named && named.service) || undefined` — i.e. the stored service
only when it is truthy. -/
def findInResolved (resolved : ResolvedMap) (key name : String) : Option Value :=
  match (resolved.find? (fun p => p.1 == key)).map (fun p => p.2) with
  | none => none
  | some records =>
    match records.find? (fun r => r.name == name) with
    | none => none
    | some named => if named.service.truthy then some named.service else none

/-- Overwrite the service of the first record with the given name
(`existingNamed.service = service`). -/
def updateFirstRecord (records : List ResolvedRecord) (name : String) (service : Value) :
    List ResolvedRecord :=
  match records with
  | [] => []
  | r :: rest =>
    if r.name == name then { name := r.name, service := service } :: rest
    else r :: updateFirstRecord rest name service

/-- The in-place update of an existing key's record list performed by
`saveInResolved`: overwrite the named record if present, push otherwise. -/
def saveContent (records : List ResolvedRecord) (name : String) (service : Value) :
    List ResolvedRecord :=
  if records.any (fun r => r.name == name) then updateFirstRecord records name service
  else records ++ [{ name := name, service := service }]

/-- `Context.saveInResolved`. -/
def saveInResolved (resolved : ResolvedMap) (key : String) (service : Value) (name : String) :
    ResolvedMap :=
  match resolved.find? (fun p => p.1 == key) with
  | none => resolved ++ [(key, [{ name := name, service := service }])]
  | some _ =>
    resolved.map (fun p => if p.1 == key then (p.1, saveContent p.2 name service) else p)

/-- `Context.getServiceRegistration`: `RangeError` when the key, or the name
under the key, has no registration. -/
def getServiceRegistration (registry : RegMap) (key name : String) :
    Except JsError Registration :=
  match RegMap.get registry key with
  | none =>
    .error (.rangeError ("Service \"" ++ stringifyServiceKey key ++ "\" is not found."))
  | some registrations =>
    match registrations.find? (fun r => r.name == name) with
    | none =>
      .error (.rangeError ("Service \"" ++ stringifyServiceKey key ++ "\", named \"" ++
        name ++ "\" is not found."))
    | some registration => .ok registration

/-- Set the `instance` field of the first registration with the given name
(`registration.instance = instance`, the record living in the registry). -/
def setInstanceFirst (registrations : List Registration) (name : String) (inst : Value) :
    List Registration :=
  match registrations with
  | [] => []
  | r :: rest =>
    if r.name == name then { r with instVal := some inst } :: rest
    else r :: setInstanceFirst rest name inst

/-- Write a resolved singleton back into the registry record. -/
def setRegistryInstance (registry : RegMap) (key name : String) (inst : Value) : RegMap :=
  registry.map (fun p => if p.1 == key then (p.1, setInstanceFirst p.2 name inst) else p)

/-- `Context.checkForCircularDependency`, on the current resolution stack
(the just-pushed entry included, at the end). Returns the thrown `Error`
when a circular dependency is declared, `none` otherwise. -/
def checkForCircularDependency (stack : List NamedKey) : Option JsError :=
  let resolutionStackPath := stack.map stringifyEntry
  match resolutionStackPath.getLast? with
  | none => none
  | some current =>
    -- `if (!current) return;` — truthiness guard on the popped entry
    if current == "" then none
    else
      let path := resolutionStackPath.dropLast
      match path.findIdx? (fun s => s == current) with
      | none => none
      | some firstAppeared =>
        let substack := path.drop firstAppeared
        if substack.length % 2 == 1 then none
        else
          -- `substack.splice(len/2, len/2)` removes and returns the second
          -- half, leaving the first half in `substack`; the loop then
          -- compares the halves element-wise.
          let first := substack.drop (substack.length / 2)
          let second := substack.take (substack.length / 2)
          if first == second then
            some (.genericError ("Circular dependency detected: " ++
              String.intercalate " < " first ++ " < (CIRCULAR) " ++ current))
          else none

/-- The wrap message of `resolveWithErrorHandling`. -/
def factoryErrMsg (key name : String) : String :=
  "An error occurred in \"" ++ stringifyServiceKey key ++ "\" service factory, named \"" ++
    name ++ "\""

/-- Observable events of a resolution run (instrumentation of the embedding):
factory invocation start/return, delayed-callback execution, successful
return of a `resolve` frame. -/
inductive Event where
  | facStart (key name : String)
  | facRet (key name : String)
  | cbRun (cid : Nat)
  | resRet (key name : String)
deriving DecidableEq, Repr

/-- Outcome of an interpreter step: a value, a thrown JS error, or fuel
exhaustion (which has no JS counterpart and is excluded from the theorems). -/
inductive Outcome where
  | ok (v : Value)
  | err (e : JsError)
  | timeout
deriving DecidableEq, Repr

/-- The mutable state of a resolution `Context` (plus the registry it
operates on, since singleton resolution writes back into registration
records, and the fresh-object allocation counter modelling the JS heap). -/
structure St where
  registry : RegMap
  resolved : ResolvedMap
  resolutionStack : List NamedKey
  delayedCallbacksQueue : List (Nat × FProg)
  fresh : Nat
deriving DecidableEq, Repr

/-- Result of an interpreter step: outcome, post-state, trace of events. -/
abbrev Res := Outcome × St × List Event

mutual

/-- `Context.resolve`: push the entry, `doResolve`, on success drain the
delayed queue, and pop on every exit path (`finally`). -/
def resolveF : Nat → St → String → Option String → Res
  | 0, st, _, _ => (.timeout, st, [])
  | fuel + 1, st, key, nameArg =>
    let name := nameArg.getD "default"
    let st1 : St :=
      { st with resolutionStack := st.resolutionStack ++ [⟨key, name⟩] }
    match doResolveF fuel st1 key name with
    | (.ok service, st2, tr) =>
      match executeDelayedF fuel st2 with
      | (.ok _, st3, tr2) =>
        (.ok service, { st3 with resolutionStack := st3.resolutionStack.dropLast },
          tr ++ tr2 ++ [.resRet key name])
      | (.err e, st3, tr2) =>
        (.err e, { st3 with resolutionStack := st3.resolutionStack.dropLast }, tr ++ tr2)
      | (.timeout, st3, tr2) => (.timeout, st3, tr ++ tr2)
    | (.err e, st2, tr) =>
      (.err e, { st2 with resolutionStack := st2.resolutionStack.dropLast }, tr)
    | (.timeout, st2, tr) => (.timeout, st2, tr)

/-- `Context.doResolve`: resolved-cache lookup, then registration-based
resolution. -/
def doResolveF : Nat → St → String → String → Res
  | 0, st, _, _ => (.timeout, st, [])
  | fuel + 1, st, key, name =>
    match findInResolved st.resolved key name with
    | some v => (.ok v, st, [])
    | none => resolveRegisteredF fuel st key name

/-- `Context.resolveRegistered`: truthy `instance` short-circuit, missing
factory `TypeError`, factory invocation, then caching according to the
lifecycle. -/
def resolveRegisteredF : Nat → St → String → String → Res
  | 0, st, _, _ => (.timeout, st, [])
  | fuel + 1, st, key, name =>
    match getServiceRegistration st.registry key name with
    | .error e => (.err e, st, [])
    | .ok registration =>
      match registration.instVal.filter Value.truthy with
      | some v => (.ok v, st, [])
      | none =>
        match registration.factory with
        | none =>
          (.err (.typeError ("Service \"" ++ stringifyServiceKey key ++
            "\" has neither instance, nor factory.")), st, [])
        | some factory =>
          match resolveWithErrorHandlingF fuel st key name factory with
          | (.ok inst, st2, tr) =>
            let st3 : St :=
              if registration.lifecycle == .singleton || registration.lifecycle == .request
              then { st2 with resolved := saveInResolved st2.resolved key inst name }
              else st2
            let st4 : St :=
              if registration.lifecycle == .singleton
              then { st3 with registry := setRegistryInstance st3.registry key name inst }
              else st3
            (.ok inst, st4, tr)
          | (.err e, st2, tr) => (.err e, st2, tr)
          | (.timeout, st2, tr) => (.timeout, st2, tr)

/-- `Context.resolveWithErrorHandling`: cycle check, factory invocation, and
the catch clause that passes `ServiceResolutionError`s through unchanged and
wraps anything else with the frame's message and the stack at catch time. -/
def resolveWithErrorHandlingF : Nat → St → String → String → FProg → Res
  | 0, st, _, _, _ => (.timeout, st, [])
  | fuel + 1, st, key, name, factory =>
    match checkForCircularDependency st.resolutionStack with
    | some circErr =>
      (.err (.resolutionError (factoryErrMsg key name) st.resolutionStack circErr), st, [])
    | none =>
      match runFProgF fuel st factory with
      | (.ok v, st2, tr) =>
        (.ok v, st2, .facStart key name :: (tr ++ [.facRet key name]))
      | (.err e, st2, tr) =>
        if e.isSRE then (.err e, st2, .facStart key name :: tr)
        else
          (.err (.resolutionError (factoryErrMsg key name) st2.resolutionStack e), st2,
            .facStart key name :: tr)
      | (.timeout, st2, tr) => (.timeout, st2, .facStart key name :: tr)

/-- Run a user factory / callback body against the context. -/
def runFProgF : Nat → St → FProg → Res
  | 0, st, _ => (.timeout, st, [])
  | _ + 1, st, .retFresh => (.ok (.vObj st.fresh), { st with fresh := st.fresh + 1 }, [])
  | _ + 1, st, .retConst v => (.ok v, st, [])
  | _ + 1, st, .throwE e => (.err e, st, [])
  | fuel + 1, st, .seqResolve key name k =>
    match resolveF fuel st key name with
    | (.ok _, st2, tr) =>
      match runFProgF fuel st2 k with
      | (o, st3, tr2) => (o, st3, tr ++ tr2)
    | (.err e, st2, tr) => (.err e, st2, tr)
    | (.timeout, st2, tr) => (.timeout, st2, tr)
  | fuel + 1, st, .seqDelay cid cb k =>
    runFProgF fuel
      { st with delayedCallbacksQueue := st.delayedCallbacksQueue ++ [(cid, cb)] } k

/-- `Context.executeDelayed`: shift-and-run until the queue is empty. -/
def executeDelayedF : Nat → St → Res
  | 0, st => (.timeout, st, [])
  | fuel + 1, st =>
    match st.delayedCallbacksQueue with
    | [] => (.ok .vNull, st, [])
    | (cid, cb) :: rest =>
      match runFProgF fuel { st with delayedCallbacksQueue := rest } cb with
      | (.ok _, st2, tr) =>
        match executeDelayedF fuel st2 with
        | (o, st3, tr2) => (o, st3, .cbRun cid :: (tr ++ tr2))
      | (.err e, st2, tr) => (.err e, st2, .cbRun cid :: tr)
      | (.timeout, st2, tr) => (.timeout, st2, .cbRun cid :: tr)

end

/-- Outcome of `resolveTuple`. -/
inductive OutcomeL where
  | ok (vs : List Value)
  | err (e : JsError)
  | timeout
deriving DecidableEq, Repr

/-- `Context.resolveTuple`: resolve each element via plain `resolve`, in the
same context. An element is a key together with an optional name. -/
def resolveTupleF (fuel : Nat) : St → List (String × Option String) →
    OutcomeL × St × List Event
  | st, [] => (.ok [], st, [])
  | st, (key, name) :: rest =>
    match resolveF fuel st key name with
    | (.ok v, st2, tr) =>
      match resolveTupleF fuel st2 rest with
      | (.ok vs, st3, tr2) => (.ok (v :: vs), st3, tr ++ tr2)
      | (.err e, st3, tr2) => (.err e, st3, tr ++ tr2)
      | (.timeout, st3, tr2) => (.timeout, st3, tr ++ tr2)
    | (.err e, st2, tr) => (.err e, st2, tr)
    | (.timeout, st2, tr) => (.timeout, st2, tr)

/-- The fresh context built for a root resolution call over a given registry
(`new Context(registry)` with empty caches and stack). -/
def initCtx (registry : RegMap) (fresh : Nat) : St :=
  { registry := registry, resolved := [], resolutionStack := [],
    delayedCallbacksQueue := [], fresh := fresh }

/-- A root `Container.resolve` call of a parentless container: the merged
registry is the container's own registry object, so registry mutations
made by the context (singleton writes) persist in the post-state. -/
def rootResolve (fuel : Nat) (registry : RegMap) (fresh : Nat)
    (key : String) (name : Option String) : Res :=
  resolveF fuel (initCtx registry fresh) key name

/-- A root `Container.resolveTuple` call of a parentless container. -/
def rootResolveTuple (fuel : Nat) (registry : RegMap) (fresh : Nat)
    (services : List (String × Option String)) : OutcomeL × St × List Event :=
  resolveTupleF fuel (initCtx registry fresh) services

/-- Registration lookup as the resolution engine performs it (first key
match, then first name match). -/
def regLookup (registry : RegMap) (key name : String) : Option Registration :=
  match RegMap.get registry key with
  | none => none
  | some registrations => registrations.find? (fun r => r.name == name)

/-! ## The `Container` layer -/

/-- Registration options (`ServiceFactoryRegistrationOptions`): optional name,
optional lifecycle, `replace` flag. -/
structure RegOptions where
  name : Option String
  lifecycle : Option Lifecycle
  replace : Bool
deriving DecidableEq, Repr

/-- Default (all-omitted) options. -/
def RegOptions.none : RegOptions := ⟨Option.none, Option.none, false⟩

/-- `options.name || "default"`: the JS `||` falls through to `"default"`
for `undefined` and for the empty string alike. -/
def jsNameOrDefault : Option String → String
  | Option.none => "default"
  | some s => if s == "" then "default" else s

/-- `Container.createRegistration`. `registerConstant` passes
`(some value, none)`, `registerFactory` passes `(none, some factory)`. -/
def createRegistration (instVal : Option Value) (factory : Option FProg)
    (options : RegOptions) : Registration :=
  { name := jsNameOrDefault options.name,
    lifecycle := options.lifecycle.getD .transient,
    instVal := instVal,
    factory := factory }

/-- Replace the first registration carrying the same name
(`splice(indexOf(existing), 1, registration)`). -/
def replaceFirstByName (registrations : List Registration) (registration : Registration) :
    List Registration :=
  match registrations with
  | [] => []
  | r :: rest =>
    if r.name == registration.name then registration :: rest
    else r :: replaceFirstByName rest registration

/-- Remove the first registration carrying the given name
(`splice(indexOf(registration), 1)`). -/
def removeFirstByName (registrations : List Registration) (name : String) :
    List Registration :=
  match registrations with
  | [] => []
  | r :: rest => if r.name == name then rest else r :: removeFirstByName rest name

/-- `Container.registerConstantOrFactory` acting on a registry: duplicate
`(key, name)` without `replace` throws a `TypeError`, otherwise the entry is
appended (new name) or replaced in place. -/
def registerOnRegistry (registry : RegMap) (key : String) (instVal : Option Value)
    (factory : Option FProg) (options : RegOptions) : Except JsError RegMap :=
  let registration := createRegistration instVal factory options
  match RegMap.get registry key with
  | Option.none => .ok (RegMap.set registry key [registration])
  | some existingRegistrations =>
    match existingRegistrations.find? (fun r => r.name == registration.name) with
    | Option.none =>
      .ok (RegMap.set registry key (existingRegistrations ++ [registration]))
    | some _ =>
      if !options.replace then
        .error (.typeError ("Service \"" ++ stringifyServiceKey key ++ "\", named \"" ++
          registration.name ++
          "\", already registered. Set 'replace' option to true, if you want to replace registration."))
      else
        .ok (RegMap.set registry key (replaceFirstByName existingRegistrations registration))

/-- `Container.unregisterOwn` acting on a registry. -/
def unregisterOwnReg (registry : RegMap) (key : String) (name : Option String) : RegMap :=
  match name with
  | Option.none => RegMap.del registry key
  | some n =>
    match RegMap.get registry key with
    | Option.none => registry
    | some registrations =>
      let registrations := removeFirstByName registrations n
      if registrations.isEmpty then RegMap.del registry key
      else RegMap.set registry key registrations

/-- A service container: own registry, stack of backup snapshots, and an
optional parent (`root` containers have none). -/
inductive Container where
  | root (registry : RegMap) (snapshots : List RegMap)
  | child (registry : RegMap) (snapshots : List RegMap) (parent : Container)
deriving DecidableEq, Repr

/-- Own registry of a container. -/
def Container.registry : Container → RegMap
  | .root r _ => r
  | .child r _ _ => r

/-- Snapshot stack of a container. -/
def Container.snapshots : Container → List RegMap
  | .root _ s => s
  | .child _ s _ => s

/-- `Container.getParent`. -/
def Container.getParent : Container → Option Container
  | .root _ _ => none
  | .child _ _ p => some p

/-- Replace the own registry of a container, keeping snapshots and parent. -/
def Container.withRegistry : Container → RegMap → Container
  | .root _ s, r => .root r s
  | .child _ s p, r => .child r s p

/-- A fresh container without a parent (`new Container()`). -/
def Container.empty : Container := .root [] []

/-- `Container.createChild`. -/
def Container.createChild (c : Container) : Container := .child [] [] c

/-- `Container.registerConstant` (value registration). -/
def Container.registerConstant (c : Container) (key : String) (service : Value)
    (options : RegOptions) : Except JsError Container :=
  (registerOnRegistry c.registry key (some service) none options).map c.withRegistry

/-- `Container.registerFactory`. -/
def Container.registerFactory (c : Container) (key : String) (factory : FProg)
    (options : RegOptions) : Except JsError Container :=
  (registerOnRegistry c.registry key none (some factory) options).map c.withRegistry

/-- `Container.unregister` with optional cascade into the parent chain. -/
def Container.unregister : Container → String → Option String → Bool → Container
  | .root r s, key, name, _ => .root (unregisterOwnReg r key name) s
  | .child r s p, key, name, cascade =>
    .child (unregisterOwnReg r key name) s
      (if cascade then p.unregister key name true else p)

/-- The per-record copy made by `backup` (`{ ...registration }`; on pure
values a field-wise copy is the record itself). -/
def copyRegistration (r : Registration) : Registration :=
  { name := r.name, instVal := r.instVal, factory := r.factory, lifecycle := r.lifecycle }

/-- The registry deep copy made by `backup`. -/
def copyRegistry (registry : RegMap) : RegMap :=
  registry.map (fun p => (p.1, p.2.map copyRegistration))

/-- `Container.backup`: push the live registry as a snapshot, swap in a
deep copy as the live registry, optionally cascading into the parent. -/
def Container.backup : Container → Bool → Container
  | .root r s, _ => .root (copyRegistry r) (s ++ [r])
  | .child r s p, cascade =>
    .child (copyRegistry r) (s ++ [r]) (if cascade then p.backup true else p)

/-- `Container.restore`: pop the most recent snapshot and make it live; a
no-op when the snapshot stack is empty. -/
def Container.restore : Container → Bool → Container
  | .root r s, _ =>
    match s.getLast? with
    | some snapshot => .root snapshot s.dropLast
    | none => .root r s
  | .child r s p, cascade =>
    let p := if cascade then p.restore true else p
    match s.getLast? with
    | some snapshot => .child snapshot s.dropLast p
    | none => .child r s p

/-- `Container.mergeRegistrations`: parent's list with name clashes replaced
in place and child-only entries appended. -/
def mergeRegistrations (parentRegistrations ownRegistrations : List Registration) :
    List Registration :=
  ownRegistrations.foldl
    (fun merged registration =>
      if merged.any (fun r => r.name == registration.name) then
        replaceFirstByName merged registration
      else merged ++ [registration])
    parentRegistrations

/-- Insertion-ordered key dedup, as `new Set([...parentKeys, ...ownKeys])`
iterates (first occurrence wins). -/
def dedupKeys (keys : List String) : List String :=
  keys.foldl (fun acc k => if acc.contains k then acc else acc ++ [k]) []

/-- `Container.getMergedRegistry`: own registry for a root container,
otherwise the per-key merge against the parent's (recursively) merged view. -/
def Container.getMergedRegistry : Container → RegMap
  | .root r _ => r
  | .child r _ p =>
    let parentRegistry := p.getMergedRegistry
    let serviceKeys :=
      dedupKeys (parentRegistry.map (fun q => q.1) ++ r.map (fun q => q.1))
    serviceKeys.foldl
      (fun result serviceKey =>
        match RegMap.get parentRegistry serviceKey, RegMap.get r serviceKey with
        | none, some own => result ++ [(serviceKey, own)]
        | some par, none => result ++ [(serviceKey, par)]
        | some par, some own => result ++ [(serviceKey, mergeRegistrations par own)]
        | none, none => result)
      []

/-- Registration mutations considered by the backup/restore round-trip:
constant registration, factory registration, unregistration (a registration
call that throws `DuplicateRegistration` leaves the container unchanged, as
the error is raised before any mutation). -/
inductive MutOp where
  | regConst (key : String) (service : Value) (options : RegOptions)
  | regFactory (key : String) (factory : FProg) (options : RegOptions)
  | unreg (key : String) (name : Option String) (cascade : Bool)
deriving DecidableEq, Repr

/-- Apply one mutation to a container. -/
def applyOp (c : Container) : MutOp → Container
  | .regConst key service options =>
    match c.registerConstant key service options with
    | .ok c2 => c2
    | .error _ => c
  | .regFactory key factory options =>
    match c.registerFactory key factory options with
    | .ok c2 => c2
    | .error _ => c
  | .unreg key name cascade => c.unregister key name cascade

/-- Apply a sequence of mutations. -/
def applyOps (ops : List MutOp) (c : Container) : Container :=
  ops.foldl applyOp c

/-! ## Spec-side model of the cycle-detection algorithm -/

/-- Modelled from the spec: the cycle-detection algorithm over the
stringified key+name path — with the just-pushed entry removed as `current`,
find the first index of `current` in the remaining path; if absent, no
cycle; otherwise take the segment from that first index to the end; if the
segment's length is odd, no cycle; otherwise split the segment into two
equal halves and declare a circular dependency if and only if the halves
are element-wise identical. -/
def circularCheckSpec (path : List String) : Bool :=
  match path.getLast? with
  | none => false
  | some current =>
    let remaining := path.dropLast
    match remaining.findIdx? (fun s => s == current) with
    | none => false
    | some firstIdx =>
      let segment := remaining.drop firstIdx
      if segment.length % 2 == 1 then false
      else segment.take (segment.length / 2) == segment.drop (segment.length / 2)

/-! ## Basic lemmas about the pure helpers -/

theorem regLookup_of_getServiceRegistration {registry : RegMap} {key name : String}
    {r : Registration} (h : getServiceRegistration registry key name = .ok r) :
    regLookup registry key name = some r := by
  unfold getServiceRegistration at h
  unfold regLookup
  cases hg : RegMap.get registry key with
  | none => simp [hg] at h
  | some regs =>
    simp only [hg] at h ⊢
    cases hf : regs.find? (fun r => r.name == name) with
    | none => simp [hf] at h
    | some r2 =>
      simp only [hf] at h ⊢
      injection h with h2
      rw [h2]

theorem getServiceRegistration_of_regLookup {registry : RegMap} {key name : String}
    {r : Registration} (h : regLookup registry key name = some r) :
    getServiceRegistration registry key name = .ok r := by
  unfold regLookup at h
  unfold getServiceRegistration
  cases hg : RegMap.get registry key with
  | none => simp [hg] at h
  | some regs =>
    simp only [hg] at h ⊢
    cases hf : regs.find? (fun r => r.name == name) with
    | none => simp [hf] at h
    | some r2 =>
      simp only [hf] at h ⊢
      injection h with h2
      rw [h2]

theorem find?_setInstanceFirst_sig (rs : List Registration) (name : String) (inst : Value)
    (n2 : String) :
    ((setInstanceFirst rs name inst).find? (fun r => r.name == n2)).map Registration.sig =
      (rs.find? (fun r => r.name == n2)).map Registration.sig := by
  induction rs with
  | nil => rfl
  | cons r rest ih =>
    unfold setInstanceFirst
    by_cases h1 : r.name = name
    · have hb : (r.name == name) = true := by simp [h1]
      by_cases h2 : r.name = n2
      · have hb2 : (r.name == n2) = true := by simp [h2]
        simp [List.find?, hb, hb2, Registration.sig]
      · have hb2 : (r.name == n2) = false := by simp [h2]
        simp [List.find?, hb, hb2]
    · have hb : (r.name == name) = false := by simp [h1]
      by_cases h2 : r.name = n2
      · have hb2 : (r.name == n2) = true := by simp [h2]
        simp [List.find?, hb, hb2]
      · have hb2 : (r.name == n2) = false := by simp [h2]
        simp only [hb, Bool.false_eq_true, if_false]
        simp only [List.find?, hb2]
        exact ih

theorem find?_setInstanceFirst_ne (rs : List Registration) (name : String) (inst : Value)
    (n2 : String) (hne : n2 ≠ name) :
    (setInstanceFirst rs name inst).find? (fun r => r.name == n2) =
      rs.find? (fun r => r.name == n2) := by
  induction rs with
  | nil => rfl
  | cons r rest ih =>
    unfold setInstanceFirst
    by_cases h1 : r.name = name
    · have hb : (r.name == name) = true := by simp [h1]
      have hr : r.name ≠ n2 := by
        rw [h1]; exact fun he => hne he.symm
      have hb2 : (r.name == n2) = false := by simp [hr]
      simp [List.find?, hb, hb2]
    · have hb : (r.name == name) = false := by simp [h1]
      by_cases h2 : r.name = n2
      · have hb2 : (r.name == n2) = true := by simp [h2]
        simp [List.find?, hb, hb2]
      · have hb2 : (r.name == n2) = false := by simp [h2]
        simp only [hb, Bool.false_eq_true, if_false]
        simp only [List.find?, hb2]
        exact ih

theorem RegMap.get_setRegistryInstance (registry : RegMap) (key name : String) (inst : Value)
    (k2 : String) :
    RegMap.get (setRegistryInstance registry key name inst) k2 =
      (RegMap.get registry k2).map
        (fun rs => if k2 == key then setInstanceFirst rs name inst else rs) := by
  induction registry with
  | nil => rfl
  | cons p rest ih =>
    simp only [setRegistryInstance, List.map_cons] at ih ⊢
    by_cases h1 : p.1 = key
    · have hb1 : (p.1 == key) = true := by simp [h1]
      by_cases h2 : p.1 = k2
      · have hb2 : (p.1 == k2) = true := by simp [h2]
        have hk : (k2 == key) = true := by simp [← h2, h1]
        simp [RegMap.get, List.find?, hb1, hb2, hk]
      · have hb2 : (p.1 == k2) = false := by simp [h2]
        simp only [RegMap.get, List.find?] at ih ⊢
        simp only [hb1, if_true, hb2]
        exact ih
    · have hb1 : (p.1 == key) = false := by simp [h1]
      by_cases h2 : p.1 = k2
      · have hb2 : (p.1 == k2) = true := by simp [h2]
        have hk : (k2 == key) = false := by
          simp only [beq_eq_false_iff_ne, ne_eq]
          exact fun he => h1 (h2.symm ▸ he : p.1 = key)
        simp [RegMap.get, List.find?, hb1, hb2, hk]
      · have hb2 : (p.1 == k2) = false := by simp [h2]
        simp only [RegMap.get, List.find?] at ih ⊢
        simp only [hb1, Bool.false_eq_true, if_false, hb2]
        exact ih

theorem regLookup_setRegistryInstance_sig (registry : RegMap) (key name : String)
    (inst : Value) (k2 n2 : String) :
    (regLookup (setRegistryInstance registry key name inst) k2 n2).map Registration.sig =
      (regLookup registry k2 n2).map Registration.sig := by
  unfold regLookup
  rw [RegMap.get_setRegistryInstance]
  cases hg : RegMap.get registry k2 with
  | none => rfl
  | some rs =>
    by_cases hk : k2 = key
    · simp only [Option.map_some', hk, beq_self_eq_true, if_true]
      exact find?_setInstanceFirst_sig rs name inst n2
    · have : (k2 == key) = false := by simp [hk]
      simp [this]

theorem regLookup_setRegistryInstance_ne (registry : RegMap) (key name : String)
    (inst : Value) (k2 n2 : String) (h : ¬(k2 = key ∧ n2 = name)) :
    regLookup (setRegistryInstance registry key name inst) k2 n2 =
      regLookup registry k2 n2 := by
  unfold regLookup
  rw [RegMap.get_setRegistryInstance]
  cases hg : RegMap.get registry k2 with
  | none => rfl
  | some rs =>
    by_cases hk : k2 = key
    · have hn : n2 ≠ name := fun hn => h ⟨hk, hn⟩
      simp only [Option.map_some', hk, beq_self_eq_true, if_true]
      exact find?_setInstanceFirst_ne rs name inst n2 hn
    · have : (k2 == key) = false := by simp [hk]
      simp [this]

theorem find?_updateFirstRecord_same (rs : List ResolvedRecord) (name : String) (v : Value)
    (hany : rs.any (fun r => r.name == name) = true) :
    (updateFirstRecord rs name v).find? (fun r => r.name == name) =
      some { name := name, service := v } := by
  induction rs with
  | nil => simp at hany
  | cons r rest ih =>
    unfold updateFirstRecord
    by_cases h1 : r.name = name
    · have hb : (r.name == name) = true := by simp [h1]
      simp [List.find?, hb, h1]
    · have hb : (r.name == name) = false := by simp [h1]
      simp only [hb, Bool.false_eq_true, if_false]
      simp only [List.any_cons, hb, Bool.false_or] at hany
      simp only [List.find?, hb]
      exact ih hany

theorem find?_updateFirstRecord_ne (rs : List ResolvedRecord) (name : String) (v : Value)
    (n2 : String) (hne : n2 ≠ name) :
    (updateFirstRecord rs name v).find? (fun r => r.name == n2) =
      rs.find? (fun r => r.name == n2) := by
  induction rs with
  | nil => rfl
  | cons r rest ih =>
    unfold updateFirstRecord
    by_cases h1 : r.name = name
    · have hb : (r.name == name) = true := by simp [h1]
      have hr : r.name ≠ n2 := by rw [h1]; exact fun he => hne he.symm
      have hb2 : (r.name == n2) = false := by simp [hr]
      simp [List.find?, hb, hb2]
    · have hb : (r.name == name) = false := by simp [h1]
      by_cases h2 : r.name = n2
      · have hb2 : (r.name == n2) = true := by simp [h2]
        simp [List.find?, hb, hb2]
      · have hb2 : (r.name == n2) = false := by simp [h2]
        simp only [hb, Bool.false_eq_true, if_false]
        simp only [List.find?, hb2]
        exact ih

theorem find?_map_keyPreserving {α : Type} (l : List (String × α))
    (g : String × α → String × α) (hg : ∀ p, (g p).1 = p.1) (k2 : String) :
    (l.map g).find? (fun p => p.1 == k2) = (l.find? (fun p => p.1 == k2)).map g := by
  induction l with
  | nil => rfl
  | cons p rest ih =>
    simp only [List.map_cons]
    by_cases h2 : p.1 = k2
    · have hb2 : (p.1 == k2) = true := by simp [h2]
      have hbg : ((g p).1 == k2) = true := by rw [hg p]; exact hb2
      simp [List.find?, hb2, hbg]
    · have hb2 : (p.1 == k2) = false := by simp [h2]
      have hbg : ((g p).1 == k2) = false := by rw [hg p]; exact hb2
      simp only [List.find?, hb2, hbg]
      exact ih

theorem saveInResolved_map_shape (resolved : ResolvedMap) (key : String) (v : Value)
    (name : String) (p0 : String × List ResolvedRecord)
    (hf : resolved.find? (fun p => p.1 == key) = some p0) (k2 : String) :
    (saveInResolved resolved key v name).find? (fun p => p.1 == k2) =
      (resolved.find? (fun p => p.1 == k2)).map
        (fun p => if p.1 == key then (p.1, saveContent p.2 name v) else p) := by
  unfold saveInResolved
  rw [hf]
  exact find?_map_keyPreserving resolved _
    (fun p => by by_cases h : p.1 = key <;> simp [h]) k2

theorem findInResolved_save_same (resolved : ResolvedMap) (key : String) (v : Value)
    (name : String) :
    findInResolved (saveInResolved resolved key v name) key name =
      if v.truthy then some v else none := by
  cases hf : resolved.find? (fun p => p.1 == key) with
  | none =>
    unfold findInResolved saveInResolved
    rw [hf, List.find?_append, hf]
    simp [Option.or, List.find?]
  | some p0 =>
    unfold findInResolved
    rw [saveInResolved_map_shape resolved key v name p0 hf, hf]
    have hp0 : (p0.1 == key) = true := by
      have := List.find?_some hf
      simpa using this
    simp only [Option.map_some', hp0, if_true]
    unfold saveContent
    by_cases hany : p0.2.any (fun r => r.name == name) = true
    · simp only [hany, if_true]
      rw [find?_updateFirstRecord_same _ _ _ hany]
    · have hany' : p0.2.any (fun r => r.name == name) = false := by
        revert hany; cases p0.2.any (fun r => r.name == name) <;> simp
      simp only [hany', Bool.false_eq_true, if_false]
      have hnone : p0.2.find? (fun r => r.name == name) = none := by
        rw [List.find?_eq_none]
        intro x hx
        rw [List.any_eq_false] at hany'
        exact fun hp => (hany' x hx) hp
      rw [List.find?_append, hnone]
      simp [List.find?]

theorem findInResolved_save_ne (resolved : ResolvedMap) (key : String) (v : Value)
    (name : String) (k2 n2 : String) (h : ¬(k2 = key ∧ n2 = name)) :
    findInResolved (saveInResolved resolved key v name) k2 n2 =
      findInResolved resolved k2 n2 := by
  cases hf : resolved.find? (fun p => p.1 == key) with
  | none =>
    unfold findInResolved saveInResolved
    rw [hf, List.find?_append]
    cases hf2 : resolved.find? (fun p => p.1 == k2) with
    | none =>
      by_cases hk : k2 = key
      · have hb : (key == k2) = true := by simp [hk]
        have hn : n2 ≠ name := fun hn => h ⟨hk, hn⟩
        have hb2 : (name == n2) = false := by
          simp only [beq_eq_false_iff_ne, ne_eq]
          exact fun he => hn he.symm
        simp [Option.or, List.find?, hb, hb2]
      · have hb : (key == k2) = false := by
          simp only [beq_eq_false_iff_ne, ne_eq]
          exact fun he => hk he.symm
        simp [Option.or, List.find?, hb]
    | some q => simp [Option.or]
  | some p0 =>
    unfold findInResolved
    rw [saveInResolved_map_shape resolved key v name p0 hf]
    cases hf2 : resolved.find? (fun p => p.1 == k2) with
    | none => rfl
    | some q =>
      have hq : (q.1 == k2) = true := by
        have := List.find?_some hf2
        simpa using this
      by_cases hk : k2 = key
      · have hn : n2 ≠ name := fun hn => h ⟨hk, hn⟩
        have hqk : (q.1 == key) = true := by
          rw [hk] at hq; exact hq
        simp only [Option.map_some', hqk, if_true]
        unfold saveContent
        by_cases hany : q.2.any (fun r => r.name == name) = true
        · simp only [hany, if_true]
          rw [find?_updateFirstRecord_ne _ _ _ _ hn]
        · have hany' : q.2.any (fun r => r.name == name) = false := by
            cases hq0 : q.2.any (fun r => r.name == name) with
            | true => exact absurd hq0 hany
            | false => rfl
          simp only [hany', Bool.false_eq_true, if_false]
          rw [List.find?_append]
          have hb2 : (name == n2) = false := by
            simp only [beq_eq_false_iff_ne, ne_eq]
            exact fun he => hn he.symm
          cases hq2 : q.2.find? (fun r => r.name == n2) with
          | none => simp [Option.or, List.find?, hb2]
          | some rr => simp [Option.or]
      · have hq' : q.1 = k2 := by simpa using hq
        have hqk : ¬q.1 = key := fun he => hk (hq' ▸ he)
        simp [hqk]

/-! ## The state-invariant bundle: stack discipline, counter monotonicity,
registry preservation -/

/-- What one interpreter step may do to the registry: every registration
keeps its name, factory and lifecycle (only the cached `instance` slot can
change), and registrations whose lifecycle is not `singleton` are preserved
verbatim. -/
def RegPres (reg reg2 : RegMap) : Prop :=
  (∀ k n, (regLookup reg2 k n).map Registration.sig =
    (regLookup reg k n).map Registration.sig) ∧
  (∀ k n r, regLookup reg k n = some r → r.lifecycle ≠ .singleton →
    regLookup reg2 k n = some r)

theorem RegPres.same (reg : RegMap) : RegPres reg reg :=
  ⟨fun _ _ => Eq.refl _, fun _ _ _ h _ => h⟩

theorem RegPres.pres_trans {a b c : RegMap} (h1 : RegPres a b) (h2 : RegPres b c) :
    RegPres a c := by
  refine ⟨fun k n => (h2.1 k n).trans (h1.1 k n), fun k n r hr hl => ?_⟩
  exact h2.2 k n r (h1.2 k n r hr hl) hl

theorem RegPres.lookup_sig {reg reg2 : RegMap} (h : RegPres reg reg2)
    {key name : String} {r : Registration} (hr : regLookup reg key name = some r) :
    ∃ r2, regLookup reg2 key name = some r2 ∧ r2.name = r.name ∧
      r2.factory = r.factory ∧ r2.lifecycle = r.lifecycle := by
  have hs := h.1 key name
  rw [hr] at hs
  cases h2 : regLookup reg2 key name with
  | none => rw [h2] at hs; simp at hs
  | some r2 =>
    rw [h2] at hs
    simp only [Option.map_some'] at hs
    injection hs with hs
    unfold Registration.sig at hs
    refine ⟨r2, Eq.refl _, ?_, ?_, ?_⟩
    · exact congrArg Prod.fst hs
    · exact congrArg (fun q => q.2.1) hs
    · exact congrArg (fun q => q.2.2) hs

theorem RegPres_setRegistryInstance (registry : RegMap) (key name : String) (inst : Value)
    (hsing : ∀ r, regLookup registry key name = some r → r.lifecycle = .singleton) :
    RegPres registry (setRegistryInstance registry key name inst) := by
  constructor
  · intro k n
    exact regLookup_setRegistryInstance_sig registry key name inst k n
  · intro k n r hr hl
    by_cases hkn : k = key ∧ n = name
    · exact absurd (hsing r (hkn.1 ▸ hkn.2 ▸ hr)) hl
    · rw [regLookup_setRegistryInstance_ne registry key name inst k n hkn]
      exact hr

/-- The state invariant of every interpreter step: the allocation counter
never decreases, the registry is only modified as `RegPres` allows, and on
every non-timeout exit the resolution stack is restored. -/
def StepOk (st : St) (r : Res) : Prop :=
  st.fresh ≤ r.2.1.fresh ∧ RegPres st.registry r.2.1.registry ∧
    (r.1 ≠ .timeout → r.2.1.resolutionStack = st.resolutionStack)

theorem StepOk.same_state (st : St) (o : Outcome) (tr : List Event) : StepOk st (o, st, tr) :=
  ⟨Nat.le_refl _, RegPres.same _, fun _ => Eq.refl _⟩

theorem stateBundle : ∀ fuel : Nat,
    (∀ st key nameArg, StepOk st (resolveF fuel st key nameArg)) ∧
    (∀ st key name, StepOk st (doResolveF fuel st key name)) ∧
    (∀ st key name, StepOk st (resolveRegisteredF fuel st key name)) ∧
    (∀ st key name factory, StepOk st (resolveWithErrorHandlingF fuel st key name factory)) ∧
    (∀ st prog, StepOk st (runFProgF fuel st prog)) ∧
    (∀ st, StepOk st (executeDelayedF fuel st)) := by
  intro fuel
  induction fuel with
  | zero =>
    refine ⟨?_, ?_, ?_, ?_, ?_, ?_⟩ <;> intros <;>
      simp only [resolveF, doResolveF, resolveRegisteredF, resolveWithErrorHandlingF,
        runFProgF, executeDelayedF] <;>
      exact StepOk.same_state _ _ _
  | succ fuel ih =>
    obtain ⟨ihR, ihD, ihRR, ihW, ihP, ihE⟩ := ih
    refine ⟨?_, ?_, ?_, ?_, ?_, ?_⟩
    -- resolveF
    · intro st key nameArg
      simp only [resolveF]
      rcases hdo : doResolveF fuel
          { st with resolutionStack :=
              st.resolutionStack ++ [⟨key, nameArg.getD "default"⟩] } key
          (nameArg.getD "default") with ⟨o2, st2, tr2⟩
      have H2 := ihD { st with resolutionStack :=
        st.resolutionStack ++ [⟨key, nameArg.getD "default"⟩] } key (nameArg.getD "default")
      rw [hdo] at H2
      obtain ⟨H2f, H2r, H2s⟩ := H2
      cases o2 with
      | ok v =>
        dsimp only
        rcases hex : executeDelayedF fuel st2 with ⟨o3, st3, tr3⟩
        have H3 := ihE st2
        rw [hex] at H3
        obtain ⟨H3f, H3r, H3s⟩ := H3
        cases o3 with
        | ok u =>
          dsimp only
          refine ⟨Nat.le_trans H2f H3f, RegPres.pres_trans H2r H3r, fun _ => ?_⟩
          have hs3 : st3.resolutionStack =
              st.resolutionStack ++ [⟨key, nameArg.getD "default"⟩] := by
            have h2 := H2s (by simp)
            have h3 := H3s (by simp)
            dsimp only at h2 h3
            rw [h3, h2]
          dsimp only
          rw [hs3]
          exact List.dropLast_concat
        | err e =>
          dsimp only
          refine ⟨Nat.le_trans H2f H3f, RegPres.pres_trans H2r H3r, fun _ => ?_⟩
          have hs3 : st3.resolutionStack =
              st.resolutionStack ++ [⟨key, nameArg.getD "default"⟩] := by
            have h2 := H2s (by simp)
            have h3 := H3s (by simp)
            dsimp only at h2 h3
            rw [h3, h2]
          dsimp only
          rw [hs3]
          exact List.dropLast_concat
        | timeout =>
          dsimp only
          exact ⟨Nat.le_trans H2f H3f, RegPres.pres_trans H2r H3r,
            fun h => absurd (Eq.refl _) h⟩
      | err e =>
        dsimp only
        refine ⟨H2f, H2r, fun _ => ?_⟩
        have h2 := H2s (by simp)
        dsimp only at h2
        dsimp only
        rw [h2]
        exact List.dropLast_concat
      | timeout =>
        dsimp only
        exact ⟨H2f, H2r, fun h => absurd (Eq.refl _) h⟩
    -- doResolveF
    · intro st key name
      simp only [doResolveF]
      cases hfr : findInResolved st.resolved key name with
      | some v => exact StepOk.same_state _ _ _
      | none => dsimp only; exact ihRR st key name
    -- resolveRegisteredF
    · intro st key name
      simp only [resolveRegisteredF]
      cases hreg : getServiceRegistration st.registry key name with
      | error e => exact StepOk.same_state _ _ _
      | ok registration =>
        dsimp only
        cases hiv : registration.instVal.filter Value.truthy with
        | some v => exact StepOk.same_state _ _ _
        | none =>
          dsimp only
          cases hfac : registration.factory with
          | none => exact StepOk.same_state _ _ _
          | some factory =>
            dsimp only
            rcases hW : resolveWithErrorHandlingF fuel st key name factory
              with ⟨oW, stW, trW⟩
            have HW := ihW st key name factory
            rw [hW] at HW
            obtain ⟨HWf, HWr, HWs⟩ := HW
            cases oW with
            | ok inst =>
              dsimp only
              have hlook : regLookup st.registry key name = some registration :=
                regLookup_of_getServiceRegistration hreg
              cases hl : registration.lifecycle with
              | transient =>
                simp only [show ((Lifecycle.transient == Lifecycle.singleton ||
                  Lifecycle.transient == Lifecycle.request) = true) = False by simp,
                  if_false, show ((Lifecycle.transient == Lifecycle.singleton) = true) = False
                  by simp, Bool.false_eq_true]
                exact ⟨HWf, HWr, fun _ => HWs (by simp)⟩
              | singleton =>
                simp only [show ((Lifecycle.singleton == Lifecycle.singleton ||
                  Lifecycle.singleton == Lifecycle.request) = true) = True by simp,
                  if_true, show ((Lifecycle.singleton == Lifecycle.singleton) = true) = True
                  by simp]
                have hsing : ∀ r, regLookup stW.registry key name = some r →
                    r.lifecycle = .singleton := by
                  intro r hr
                  obtain ⟨r2, hr2, _, _, hrl⟩ := HWr.lookup_sig hlook
                  rw [hr2] at hr
                  injection hr with hr
                  rw [← hr, hrl, hl]
                refine ⟨HWf, RegPres.pres_trans HWr ?_, fun _ => HWs (by simp)⟩
                exact RegPres_setRegistryInstance stW.registry key name inst hsing
              | request =>
                simp only [show ((Lifecycle.request == Lifecycle.singleton ||
                  Lifecycle.request == Lifecycle.request) = true) = True by simp, if_true,
                  show ((Lifecycle.request == Lifecycle.singleton) = true) = False by simp,
                  Bool.false_eq_true, if_false]
                exact ⟨HWf, HWr, fun _ => HWs (by simp)⟩
            | err e =>
              dsimp only
              exact ⟨HWf, HWr, fun _ => HWs (by simp)⟩
            | timeout =>
              dsimp only
              exact ⟨HWf, HWr, fun h => absurd (Eq.refl _) h⟩
    -- resolveWithErrorHandlingF
    · intro st key name factory
      simp only [resolveWithErrorHandlingF]
      cases hc : checkForCircularDependency st.resolutionStack with
      | some circErr => exact StepOk.same_state _ _ _
      | none =>
        dsimp only
        rcases hP : runFProgF fuel st factory with ⟨oP, stP, trP⟩
        have HP := ihP st factory
        rw [hP] at HP
        obtain ⟨HPf, HPr, HPs⟩ := HP
        cases oP with
        | ok v =>
          dsimp only
          exact ⟨HPf, HPr, fun _ => HPs (by simp)⟩
        | err e =>
          dsimp only
          cases he : e.isSRE with
          | true =>
            simp only [he, if_true]
            exact ⟨HPf, HPr, fun _ => HPs (by simp)⟩
          | false =>
            simp only [he, Bool.false_eq_true, if_false]
            exact ⟨HPf, HPr, fun _ => HPs (by simp)⟩
        | timeout =>
          dsimp only
          exact ⟨HPf, HPr, fun h => absurd (Eq.refl _) h⟩
    -- runFProgF
    · intro st prog
      cases prog with
      | retFresh =>
        simp only [runFProgF]
        exact ⟨Nat.le_succ _, RegPres.same _, fun _ => Eq.refl _⟩
      | retConst v => simp only [runFProgF]; exact StepOk.same_state _ _ _
      | throwE e => simp only [runFProgF]; exact StepOk.same_state _ _ _
      | seqResolve key name k =>
        simp only [runFProgF]
        rcases hR : resolveF fuel st key name with ⟨oR, stR, trR⟩
        have HR := ihR st key name
        rw [hR] at HR
        obtain ⟨HRf, HRr, HRs⟩ := HR
        cases oR with
        | ok v =>
          dsimp only
          rcases hK : runFProgF fuel stR k with ⟨oK, stK, trK⟩
          have HK := ihP stR k
          rw [hK] at HK
          obtain ⟨HKf, HKr, HKs⟩ := HK
          refine ⟨Nat.le_trans HRf HKf, RegPres.pres_trans HRr HKr, fun ho => ?_⟩
          have hk := HKs (by dsimp only at ho ⊢; exact ho)
          have hr := HRs (by simp)
          dsimp only at hk hr ⊢
          rw [hk, hr]
        | err e =>
          dsimp only
          exact ⟨HRf, HRr, fun _ => HRs (by simp)⟩
        | timeout =>
          dsimp only
          exact ⟨HRf, HRr, fun h => absurd (Eq.refl _) h⟩
      | seqDelay cid cb k =>
        simp only [runFProgF]
        have HK := ihP { st with delayedCallbacksQueue :=
          st.delayedCallbacksQueue ++ [(cid, cb)] } k
        rcases hK : runFProgF fuel { st with delayedCallbacksQueue :=
          st.delayedCallbacksQueue ++ [(cid, cb)] } k with ⟨oK, stK, trK⟩
        rw [hK] at HK
        obtain ⟨HKf, HKr, HKs⟩ := HK
        exact ⟨HKf, HKr, fun ho => HKs ho⟩
    -- executeDelayedF
    · intro st
      simp only [executeDelayedF]
      cases hq : st.delayedCallbacksQueue with
      | nil => exact StepOk.same_state _ _ _
      | cons hd rest =>
        obtain ⟨cid, cb⟩ := hd
        dsimp only
        rcases hP : runFProgF fuel { st with delayedCallbacksQueue := rest } cb
          with ⟨oP, stP, trP⟩
        have HP := ihP { st with delayedCallbacksQueue := rest } cb
        rw [hP] at HP
        obtain ⟨HPf, HPr, HPs⟩ := HP
        cases oP with
        | ok v =>
          dsimp only
          rcases hE : executeDelayedF fuel stP with ⟨oE, stE, trE⟩
          have HE := ihE stP
          rw [hE] at HE
          obtain ⟨HEf, HEr, HEs⟩ := HE
          cases oE with
          | ok u =>
            dsimp only
            refine ⟨Nat.le_trans HPf HEf, RegPres.pres_trans HPr HEr, fun _ => ?_⟩
            have he := HEs (by simp)
            have hp := HPs (by simp)
            dsimp only at he hp
            rw [he, hp]
          | err e =>
            dsimp only
            refine ⟨Nat.le_trans HPf HEf, RegPres.pres_trans HPr HEr, fun _ => ?_⟩
            have he := HEs (by simp)
            have hp := HPs (by simp)
            dsimp only at he hp
            rw [he, hp]
          | timeout =>
            dsimp only
            exact ⟨Nat.le_trans HPf HEf, RegPres.pres_trans HPr HEr,
              fun h => absurd (Eq.refl _) h⟩
        | err e =>
          dsimp only
          exact ⟨HPf, HPr, fun _ => HPs (by simp)⟩
        | timeout =>
          dsimp only
          exact ⟨HPf, HPr, fun h => absurd (Eq.refl _) h⟩

/-! ## The FIFO queue bundle: the delayed-callback queue is consumed from the
front only, each dequeued callback's execution event entering the trace in
dequeue order, and new callbacks are appended at the back. -/

/-- How one interpreter step relates the delayed queue before (`q`) and after
(`q2`), together with the emitted trace: a prefix `consumed` of `q` has been
dequeued and executed — its `cbRun` events appearing in the trace in queue
order — while the untouched `kept` suffix remains ahead of any newly
enqueued callbacks. -/
def QRel (q : List (Nat × FProg)) (tr : List Event) (q2 : List (Nat × FProg)) : Prop :=
  ∃ consumed kept extra, q = consumed ++ kept ∧ q2 = kept ++ extra ∧
    List.Sublist (consumed.map (fun p => Event.cbRun p.1)) tr

theorem QRel.refl (q : List (Nat × FProg)) (tr : List Event) : QRel q tr q :=
  ⟨[], q, [], Eq.refl _, (List.append_nil q).symm, List.nil_sublist _⟩

theorem QRel.snoc (q : List (Nat × FProg)) (tr : List Event) (e : Nat × FProg) :
    QRel q tr (q ++ [e]) :=
  ⟨[], q, [e], Eq.refl _, Eq.refl _, List.nil_sublist _⟩

theorem QRel.cons_tr {q tr q2} (e : Event) (h : QRel q tr q2) : QRel q (e :: tr) q2 := by
  obtain ⟨c, k, x, h1, h2, h3⟩ := h
  exact ⟨c, k, x, h1, h2, List.Sublist.cons e h3⟩

theorem QRel.append_tr {q tr q2} (tr2 : List Event) (h : QRel q tr q2) :
    QRel q (tr ++ tr2) q2 := by
  obtain ⟨c, k, x, h1, h2, h3⟩ := h
  exact ⟨c, k, x, h1, h2, h3.trans (List.sublist_append_left tr tr2)⟩

theorem QRel.rel_trans {q tr1 q1 tr2 q2} (h1 : QRel q tr1 q1) (h2 : QRel q1 tr2 q2) :
    QRel q (tr1 ++ tr2) q2 := by
  obtain ⟨c1, k1, x1, hq, hq1, he1⟩ := h1
  obtain ⟨c2, k2, x2, hq1', hq2, he2⟩ := h2
  rw [hq1'] at hq1
  rcases List.append_eq_append_iff.mp hq1 with ⟨a', ha1, ha2⟩ | ⟨c', hc1, hc2⟩
  · -- the second step consumed a prefix of `k1`, leaving `a'`
    refine ⟨c1 ++ c2, a', x1 ++ x2, ?_, ?_, ?_⟩
    · rw [hq, ha1, List.append_assoc]
    · rw [hq2, ha2, List.append_assoc]
    · rw [List.map_append]
      exact List.Sublist.append he1 he2
  · -- the second step consumed all of `k1` (and some fresh entries)
    refine ⟨c1 ++ k1, [], q2, by rw [hq, List.append_nil], by rw [List.nil_append], ?_⟩
    rw [List.map_append]
    refine List.Sublist.append he1 (List.Sublist.trans ?_ he2)
    rw [hc1, List.map_append]
    exact List.sublist_append_left _ _

/-- Every interpreter step respects the FIFO queue discipline `QRel`. -/
theorem queueBundle : ∀ fuel : Nat,
    (∀ st key nameArg, QRel st.delayedCallbacksQueue (resolveF fuel st key nameArg).2.2
      (resolveF fuel st key nameArg).2.1.delayedCallbacksQueue) ∧
    (∀ st key name, QRel st.delayedCallbacksQueue (doResolveF fuel st key name).2.2
      (doResolveF fuel st key name).2.1.delayedCallbacksQueue) ∧
    (∀ st key name, QRel st.delayedCallbacksQueue (resolveRegisteredF fuel st key name).2.2
      (resolveRegisteredF fuel st key name).2.1.delayedCallbacksQueue) ∧
    (∀ st key name factory, QRel st.delayedCallbacksQueue
      (resolveWithErrorHandlingF fuel st key name factory).2.2
      (resolveWithErrorHandlingF fuel st key name factory).2.1.delayedCallbacksQueue) ∧
    (∀ st prog, QRel st.delayedCallbacksQueue (runFProgF fuel st prog).2.2
      (runFProgF fuel st prog).2.1.delayedCallbacksQueue) ∧
    (∀ st, QRel st.delayedCallbacksQueue (executeDelayedF fuel st).2.2
      (executeDelayedF fuel st).2.1.delayedCallbacksQueue) := by
  intro fuel
  induction fuel with
  | zero =>
    refine ⟨?_, ?_, ?_, ?_, ?_, ?_⟩ <;> intros <;>
      simp only [resolveF, doResolveF, resolveRegisteredF, resolveWithErrorHandlingF,
        runFProgF, executeDelayedF] <;>
      exact QRel.refl _ _
  | succ fuel ih =>
    obtain ⟨ihR, ihD, ihRR, ihW, ihP, ihE⟩ := ih
    refine ⟨?_, ?_, ?_, ?_, ?_, ?_⟩
    -- resolveF
    · intro st key nameArg
      simp only [resolveF]
      rcases hdo : doResolveF fuel
          { st with resolutionStack :=
              st.resolutionStack ++ [⟨key, nameArg.getD "default"⟩] } key
          (nameArg.getD "default") with ⟨o2, st2, tr2⟩
      have H2 := ihD { st with resolutionStack :=
        st.resolutionStack ++ [⟨key, nameArg.getD "default"⟩] } key (nameArg.getD "default")
      rw [hdo] at H2
      dsimp only at H2
      cases o2 with
      | ok v =>
        dsimp only
        rcases hex : executeDelayedF fuel st2 with ⟨o3, st3, tr3⟩
        have H3 := ihE st2
        rw [hex] at H3
        dsimp only at H3
        have H23 := QRel.rel_trans H2 H3
        cases o3 with
        | ok u =>
          dsimp only
          exact QRel.append_tr _ H23
        | err e =>
          dsimp only
          exact H23
        | timeout =>
          dsimp only
          exact H23
      | err e => dsimp only; exact H2
      | timeout => dsimp only; exact H2
    -- doResolveF
    · intro st key name
      simp only [doResolveF]
      cases hfr : findInResolved st.resolved key name with
      | some v => exact QRel.refl _ _
      | none => dsimp only; exact ihRR st key name
    -- resolveRegisteredF
    · intro st key name
      simp only [resolveRegisteredF]
      cases hreg : getServiceRegistration st.registry key name with
      | error e => exact QRel.refl _ _
      | ok registration =>
        dsimp only
        cases hiv : registration.instVal.filter Value.truthy with
        | some v => exact QRel.refl _ _
        | none =>
          dsimp only
          cases hfac : registration.factory with
          | none => exact QRel.refl _ _
          | some factory =>
            dsimp only
            rcases hW : resolveWithErrorHandlingF fuel st key name factory
              with ⟨oW, stW, trW⟩
            have HW := ihW st key name factory
            rw [hW] at HW
            dsimp only at HW
            cases oW with
            | ok inst =>
              dsimp only
              cases hl : registration.lifecycle with
              | transient =>
                simp only [show ((Lifecycle.transient == Lifecycle.singleton ||
                  Lifecycle.transient == Lifecycle.request) = true) = False by simp,
                  if_false, show ((Lifecycle.transient == Lifecycle.singleton) = true) = False
                  by simp, Bool.false_eq_true]
                exact HW
              | singleton =>
                simp only [show ((Lifecycle.singleton == Lifecycle.singleton ||
                  Lifecycle.singleton == Lifecycle.request) = true) = True by simp,
                  if_true, show ((Lifecycle.singleton == Lifecycle.singleton) = true) = True
                  by simp]
                exact HW
              | request =>
                simp only [show ((Lifecycle.request == Lifecycle.singleton ||
                  Lifecycle.request == Lifecycle.request) = true) = True by simp, if_true,
                  show ((Lifecycle.request == Lifecycle.singleton) = true) = False by simp,
                  Bool.false_eq_true, if_false]
                exact HW
            | err e => dsimp only; exact HW
            | timeout => dsimp only; exact HW
    -- resolveWithErrorHandlingF
    · intro st key name factory
      simp only [resolveWithErrorHandlingF]
      cases hc : checkForCircularDependency st.resolutionStack with
      | some circErr => exact QRel.refl _ _
      | none =>
        dsimp only
        rcases hP : runFProgF fuel st factory with ⟨oP, stP, trP⟩
        have HP := ihP st factory
        rw [hP] at HP
        dsimp only at HP
        cases oP with
        | ok v =>
          dsimp only
          exact QRel.cons_tr _ (QRel.append_tr _ HP)
        | err e =>
          dsimp only
          cases he : e.isSRE with
          | true =>
            simp only [he, if_true]
            exact QRel.cons_tr _ HP
          | false =>
            simp only [he, Bool.false_eq_true, if_false]
            exact QRel.cons_tr _ HP
        | timeout =>
          dsimp only
          exact QRel.cons_tr _ HP
    -- runFProgF
    · intro st prog
      cases prog with
      | retFresh => simp only [runFProgF]; exact QRel.refl _ _
      | retConst v => simp only [runFProgF]; exact QRel.refl _ _
      | throwE e => simp only [runFProgF]; exact QRel.refl _ _
      | seqResolve key name k =>
        simp only [runFProgF]
        rcases hR : resolveF fuel st key name with ⟨oR, stR, trR⟩
        have HR := ihR st key name
        rw [hR] at HR
        dsimp only at HR
        cases oR with
        | ok v =>
          dsimp only
          rcases hK : runFProgF fuel stR k with ⟨oK, stK, trK⟩
          have HK := ihP stR k
          rw [hK] at HK
          dsimp only at HK
          exact QRel.rel_trans HR HK
        | err e => dsimp only; exact HR
        | timeout => dsimp only; exact HR
      | seqDelay cid cb k =>
        simp only [runFProgF]
        have HK := ihP { st with delayedCallbacksQueue :=
          st.delayedCallbacksQueue ++ [(cid, cb)] } k
        rcases hK : runFProgF fuel { st with delayedCallbacksQueue :=
          st.delayedCallbacksQueue ++ [(cid, cb)] } k with ⟨oK, stK, trK⟩
        rw [hK] at HK
        dsimp only at HK
        have hpre : QRel st.delayedCallbacksQueue []
            (st.delayedCallbacksQueue ++ [(cid, cb)]) := QRel.snoc _ _ _
        have := QRel.rel_trans hpre HK
        rw [List.nil_append] at this
        exact this
    -- executeDelayedF
    · intro st
      simp only [executeDelayedF]
      cases hq : st.delayedCallbacksQueue with
      | nil =>
        dsimp only
        rw [hq]
        exact QRel.refl _ _
      | cons hd rest =>
        obtain ⟨cid, cb⟩ := hd
        dsimp only
        rcases hP : runFProgF fuel { st with delayedCallbacksQueue := rest } cb
          with ⟨oP, stP, trP⟩
        have HP := ihP { st with delayedCallbacksQueue := rest } cb
        rw [hP] at HP
        dsimp only at HP
        have hcons : ∀ tr q2, QRel rest tr q2 →
            QRel ((cid, cb) :: rest) (Event.cbRun cid :: tr) q2 := by
          intro tr q2 hr
          obtain ⟨c, k, x, h1, h2, h3⟩ := hr
          exact ⟨(cid, cb) :: c, k, x, by simp [h1], h2,
            by simpa using List.Sublist.cons₂ (Event.cbRun cid) h3⟩
        cases oP with
        | ok v =>
          dsimp only
          rcases hE : executeDelayedF fuel stP with ⟨oE, stE, trE⟩
          have HE := ihE stP
          rw [hE] at HE
          dsimp only at HE
          cases oE with
          | ok u => dsimp only; exact hcons _ _ (QRel.rel_trans HP HE)
          | err e => dsimp only; exact hcons _ _ (QRel.rel_trans HP HE)
          | timeout => dsimp only; exact hcons _ _ (QRel.rel_trans HP HE)
        | err e => dsimp only; exact hcons _ _ HP
        | timeout => dsimp only; exact hcons _ _ HP

/-- `executeDelayed` loops until the queue is empty: on successful return the
delayed-callback queue has been fully drained. -/
theorem executeDelayed_drains : ∀ fuel st v st2 tr,
    executeDelayedF fuel st = (.ok v, st2, tr) → st2.delayedCallbacksQueue = [] := by
  intro fuel
  induction fuel with
  | zero =>
    intro st v st2 tr h
    simp [executeDelayedF] at h
  | succ fuel ih =>
    intro st v st2 tr h
    simp only [executeDelayedF] at h
    cases hq : st.delayedCallbacksQueue with
    | nil =>
      rw [hq] at h
      dsimp only at h
      injection h with h1 h2
      injection h2 with h2 h3
      rw [← h2, hq]
    | cons hd rest =>
      obtain ⟨cid, cb⟩ := hd
      rw [hq] at h
      dsimp only at h
      rcases hP : runFProgF fuel { st with delayedCallbacksQueue := rest } cb
        with ⟨oP, stP, trP⟩
      rw [hP] at h
      cases oP with
      | ok u =>
        dsimp only at h
        rcases hE : executeDelayedF fuel stP with ⟨oE, stE, trE⟩
        rw [hE] at h
        dsimp only at h
        injection h with h1 h2
        injection h2 with h2 h3
        rw [h1] at hE
        rw [← h2]
        exact ih stP v stE trE hE
      | err e =>
        dsimp only at h
        injection h with h1 h2
        exact absurd h1 (by simp)
      | timeout =>
        dsimp only at h
        injection h with h1 h2
        exact absurd h1 (by simp)

/-- On every successful `resolve` return the delayed-callback queue is
empty: every callback pending at any point of the call has been executed
before the call returned. -/
theorem resolveF_ok_queue_empty : ∀ fuel st key nameArg v st2 tr,
    resolveF fuel st key nameArg = (.ok v, st2, tr) →
    st2.delayedCallbacksQueue = [] := by
  intro fuel st key nameArg v st2 tr h
  cases fuel with
  | zero => simp [resolveF] at h
  | succ fuel =>
    simp only [resolveF] at h
    rcases hdo : doResolveF fuel
        { st with resolutionStack :=
            st.resolutionStack ++ [⟨key, nameArg.getD "default"⟩] } key
        (nameArg.getD "default") with ⟨o2, st2', tr2⟩
    rw [hdo] at h
    cases o2 with
    | ok u =>
      dsimp only at h
      rcases hex : executeDelayedF fuel st2' with ⟨o3, st3, tr3⟩
      rw [hex] at h
      cases o3 with
      | ok w =>
        dsimp only at h
        injection h with h1 h2
        injection h2 with h2 h3
        rw [← h2]
        exact executeDelayed_drains fuel st2' w st3 tr3 hex
      | err e =>
        dsimp only at h
        injection h with h1 h2
        exact absurd h1 (by simp)
      | timeout =>
        dsimp only at h
        injection h with h1 h2
        exact absurd h1 (by simp)
    | err e =>
      dsimp only at h
      injection h with h1 h2
      exact absurd h1 (by simp)
    | timeout =>
      dsimp only at h
      injection h with h1 h2
      exact absurd h1 (by simp)

/-! ## The cache-stability bundle: once the context has cached a truthy
value for `(key, name)`, every later resolution of `(key, name)` in the same
context returns that value, never invokes the factory again, and leaves the
cached binding and the registry entry of `(key, name)` untouched. -/

theorem findInResolved_truthy {resolved : ResolvedMap} {key name : String} {v : Value}
    (h : findInResolved resolved key name = some v) : v.truthy = true := by
  unfold findInResolved at h
  cases h1 : (resolved.find? (fun p => p.1 == key)).map (fun p => p.2) with
  | none => rw [h1] at h; simp at h
  | some records =>
    rw [h1] at h
    dsimp only at h
    cases h2 : records.find? (fun r => r.name == name) with
    | none => rw [h2] at h; simp at h
    | some named =>
      rw [h2] at h
      dsimp only at h
      cases h3 : named.service.truthy with
      | true =>
        rw [h3] at h
        simp only [if_true] at h
        injection h with h
        rw [← h]
        exact h3
      | false => rw [h3] at h; simp at h

/-- The cached binding for `(key, name)`. -/
def Phi (key name : String) (v : Value) (st : St) : Prop :=
  findInResolved st.resolved key name = some v

/-- Conclusions of the cache-stability bundle for one step from `st` with
result `r`: the binding survives, the registry entry of `(key, name)` is
unchanged, and the factory of `(key, name)` is never started. -/
def PhiKept (key name : String) (v : Value) (st : St) (r : Res) : Prop :=
  findInResolved r.2.1.resolved key name = some v ∧
  regLookup r.2.1.registry key name = regLookup st.registry key name ∧
  Event.facStart key name ∉ r.2.2

theorem PhiKept.base {key name : String} {v : Value} {st : St}
    (h : Phi key name v st) {tr : List Event} (htr : Event.facStart key name ∉ tr)
    (o : Outcome) : PhiKept key name v st (o, st, tr) :=
  ⟨h, Eq.refl _, htr⟩

theorem PhiKept.comp {key name : String} {v : Value} {st st1 st2 : St}
    {o1 o2 : Outcome} {tr1 tr2 : List Event}
    (h1 : PhiKept key name v st (o1, st1, tr1))
    (h2 : PhiKept key name v st1 (o2, st2, tr2)) (o : Outcome) :
    PhiKept key name v st (o, st2, tr1 ++ tr2) := by
  refine ⟨h2.1, h2.2.1.trans h1.2.1, ?_⟩
  rw [List.mem_append]
  rintro (hc | hc)
  · exact h1.2.2 hc
  · exact h2.2.2 hc

theorem phiBundle (key name : String) (v : Value) : ∀ fuel : Nat,
    (∀ st k nArg, Phi key name v st →
      PhiKept key name v st (resolveF fuel st k nArg) ∧
      (k = key → nArg.getD "default" = name →
        ∀ w, (resolveF fuel st k nArg).1 = .ok w → w = v)) ∧
    (∀ st k n, Phi key name v st →
      PhiKept key name v st (doResolveF fuel st k n) ∧
      (k = key → n = name → ∀ w, (doResolveF fuel st k n).1 = .ok w → w = v)) ∧
    (∀ st k n, Phi key name v st → ¬(k = key ∧ n = name) →
      PhiKept key name v st (resolveRegisteredF fuel st k n)) ∧
    (∀ st k n factory, Phi key name v st → ¬(k = key ∧ n = name) →
      PhiKept key name v st (resolveWithErrorHandlingF fuel st k n factory)) ∧
    (∀ st prog, Phi key name v st → PhiKept key name v st (runFProgF fuel st prog)) ∧
    (∀ st, Phi key name v st → PhiKept key name v st (executeDelayedF fuel st)) := by
  intro fuel
  induction fuel with
  | zero =>
    refine ⟨?_, ?_, ?_, ?_, ?_, ?_⟩ <;> intros <;>
      simp only [resolveF, doResolveF, resolveRegisteredF, resolveWithErrorHandlingF,
        runFProgF, executeDelayedF] <;>
      first
      | exact ⟨PhiKept.base (by assumption) (by simp) _,
          fun _ _ w hw => absurd hw (by simp)⟩
      | exact PhiKept.base (by assumption) (by simp) _
  | succ fuel ih =>
    obtain ⟨ihR, ihD, ihRR, ihW, ihP, ihE⟩ := ih
    refine ⟨?_, ?_, ?_, ?_, ?_, ?_⟩
    -- resolveF
    · intro st k nArg hphi
      simp only [resolveF]
      rcases hdo : doResolveF fuel
          { st with resolutionStack :=
              st.resolutionStack ++ [⟨k, nArg.getD "default"⟩] } k
          (nArg.getD "default") with ⟨o2, st2, tr2⟩
      have hphi1 : Phi key name v { st with resolutionStack :=
          st.resolutionStack ++ [⟨k, nArg.getD "default"⟩] } := hphi
      have H2 := ihD _ k (nArg.getD "default") hphi1
      rw [hdo] at H2
      obtain ⟨H2k, H2v⟩ := H2
      have H2reg : regLookup st2.registry key name = regLookup st.registry key name :=
        H2k.2.1
      cases o2 with
      | ok u =>
        dsimp only
        rcases hex : executeDelayedF fuel st2 with ⟨o3, st3, tr3⟩
        have H3 := ihE st2 H2k.1
        rw [hex] at H3
        have H23 : PhiKept key name v st (o3, st3, tr2 ++ tr3) :=
          PhiKept.comp ⟨H2k.1, H2reg, H2k.2.2⟩ H3 o3
        cases o3 with
        | ok w =>
          dsimp only
          constructor
          · refine ⟨H23.1, H23.2.1, ?_⟩
            intro hmem
            rw [List.append_assoc, List.mem_append] at hmem
            rcases hmem with hc | hc
            · exact H23.2.2 (List.mem_append.mpr (Or.inl hc))
            · rw [List.mem_append] at hc
              rcases hc with hc | hc
              · exact H23.2.2 (List.mem_append.mpr (Or.inr hc))
              · simp at hc
          · intro hk hn w2 hw
            injection hw with hw
            exact hw ▸ H2v hk hn u rfl
        | err e =>
          dsimp only
          exact ⟨⟨H23.1, H23.2.1, H23.2.2⟩, fun _ _ w hw => absurd hw (by simp)⟩
        | timeout =>
          dsimp only
          exact ⟨⟨H23.1, H23.2.1, H23.2.2⟩, fun _ _ w hw => absurd hw (by simp)⟩
      | err e =>
        dsimp only
        exact ⟨⟨H2k.1, H2reg, H2k.2.2⟩, fun _ _ w hw => absurd hw (by simp)⟩
      | timeout =>
        dsimp only
        exact ⟨⟨H2k.1, H2reg, H2k.2.2⟩, fun _ _ w hw => absurd hw (by simp)⟩
    -- doResolveF
    · intro st k n hphi
      simp only [doResolveF]
      cases hfr : findInResolved st.resolved k n with
      | some w =>
        refine ⟨PhiKept.base hphi (by simp) _, ?_⟩
        intro hk hn w2 hw
        dsimp only at hw
        injection hw with hw
        rw [hk, hn] at hfr
        rw [hphi] at hfr
        injection hfr with hfr
        rw [← hw, hfr]
      | none =>
        by_cases hkn : k = key ∧ n = name
        · rw [hkn.1, hkn.2] at hfr
          rw [hphi] at hfr
          exact absurd hfr (by simp)
        · exact ⟨ihRR st k n hphi hkn, fun hk hn => absurd ⟨hk, hn⟩ hkn⟩
    -- resolveRegisteredF
    · intro st k n hphi hkn
      simp only [resolveRegisteredF]
      cases hreg : getServiceRegistration st.registry k n with
      | error e => exact PhiKept.base hphi (by simp) _
      | ok registration =>
        dsimp only
        cases hiv : registration.instVal.filter Value.truthy with
        | some w => exact PhiKept.base hphi (by simp) _
        | none =>
          dsimp only
          cases hfac : registration.factory with
          | none => exact PhiKept.base hphi (by simp) _
          | some factory =>
            dsimp only
            rcases hW : resolveWithErrorHandlingF fuel st k n factory
              with ⟨oW, stW, trW⟩
            have HW := ihW st k n factory hphi hkn
            rw [hW] at HW
            cases oW with
            | ok inst =>
              dsimp only
              cases hl : registration.lifecycle with
              | transient =>
                simp only [show ((Lifecycle.transient == Lifecycle.singleton ||
                  Lifecycle.transient == Lifecycle.request) = true) = False by simp,
                  if_false, show ((Lifecycle.transient == Lifecycle.singleton) = true) = False
                  by simp, Bool.false_eq_true]
                exact HW
              | singleton =>
                simp only [show ((Lifecycle.singleton == Lifecycle.singleton ||
                  Lifecycle.singleton == Lifecycle.request) = true) = True by simp,
                  if_true, show ((Lifecycle.singleton == Lifecycle.singleton) = true) = True
                  by simp]
                refine ⟨?_, ?_, HW.2.2⟩
                · dsimp only
                  rw [findInResolved_save_ne stW.resolved k inst n key name
                    (fun hc => hkn ⟨hc.1.symm, hc.2.symm⟩)]
                  exact HW.1
                · dsimp only
                  rw [regLookup_setRegistryInstance_ne _ k n inst key name
                    (fun hc => hkn ⟨hc.1.symm, hc.2.symm⟩)]
                  exact HW.2.1
              | request =>
                simp only [show ((Lifecycle.request == Lifecycle.singleton ||
                  Lifecycle.request == Lifecycle.request) = true) = True by simp, if_true,
                  show ((Lifecycle.request == Lifecycle.singleton) = true) = False by simp,
                  Bool.false_eq_true, if_false]
                refine ⟨?_, HW.2.1, HW.2.2⟩
                dsimp only
                rw [findInResolved_save_ne stW.resolved k inst n key name
                  (fun hc => hkn ⟨hc.1.symm, hc.2.symm⟩)]
                exact HW.1
            | err e => dsimp only; exact HW
            | timeout => dsimp only; exact HW
    -- resolveWithErrorHandlingF
    · intro st k n factory hphi hkn
      simp only [resolveWithErrorHandlingF]
      cases hc : checkForCircularDependency st.resolutionStack with
      | some circErr => exact PhiKept.base hphi (by simp) _
      | none =>
        dsimp only
        rcases hP : runFProgF fuel st factory with ⟨oP, stP, trP⟩
        have HP := ihP st factory hphi
        rw [hP] at HP
        have hfacne : Event.facStart k n ≠ Event.facStart key name := by
          intro hc
          injection hc with hc1 hc2
          exact hkn ⟨hc1, hc2⟩
        have hfacne2 : Event.facStart key name ≠ Event.facStart k n :=
          fun hc => hfacne hc.symm
        cases oP with
        | ok w =>
          dsimp only
          refine ⟨HP.1, HP.2.1, ?_⟩
          intro hmem
          rcases List.mem_cons.mp hmem with hc | hc
          · exact hfacne2 hc
          · rw [List.mem_append] at hc
            rcases hc with hc | hc
            · exact HP.2.2 hc
            · simp at hc
        | err e =>
          dsimp only
          cases he : e.isSRE with
          | true =>
            simp only [he, if_true]
            refine ⟨HP.1, HP.2.1, ?_⟩
            intro hmem
            rcases List.mem_cons.mp hmem with hc | hc
            · exact hfacne2 hc
            · exact HP.2.2 hc
          | false =>
            simp only [he, Bool.false_eq_true, if_false]
            refine ⟨HP.1, HP.2.1, ?_⟩
            intro hmem
            rcases List.mem_cons.mp hmem with hc | hc
            · exact hfacne2 hc
            · exact HP.2.2 hc
        | timeout =>
          dsimp only
          refine ⟨HP.1, HP.2.1, ?_⟩
          intro hmem
          rcases List.mem_cons.mp hmem with hc | hc
          · exact hfacne2 hc
          · exact HP.2.2 hc
    -- runFProgF
    · intro st prog hphi
      cases prog with
      | retFresh => simp only [runFProgF]; exact ⟨hphi, Eq.refl _, by simp⟩
      | retConst w => simp only [runFProgF]; exact PhiKept.base hphi (by simp) _
      | throwE e => simp only [runFProgF]; exact PhiKept.base hphi (by simp) _
      | seqResolve k2 n2 k =>
        simp only [runFProgF]
        rcases hR : resolveF fuel st k2 n2 with ⟨oR, stR, trR⟩
        have HR := (ihR st k2 n2 hphi).1
        rw [hR] at HR
        cases oR with
        | ok w =>
          dsimp only
          rcases hK : runFProgF fuel stR k with ⟨oK, stK, trK⟩
          have HK := ihP stR k HR.1
          rw [hK] at HK
          exact PhiKept.comp HR HK oK
        | err e => dsimp only; exact HR
        | timeout => dsimp only; exact HR
      | seqDelay cid cb k =>
        simp only [runFProgF]
        exact ihP { st with delayedCallbacksQueue :=
          st.delayedCallbacksQueue ++ [(cid, cb)] } k hphi
    -- executeDelayedF
    · intro st hphi
      simp only [executeDelayedF]
      cases hq : st.delayedCallbacksQueue with
      | nil =>
        dsimp only
        exact PhiKept.base hphi (by simp) _
      | cons hd rest =>
        obtain ⟨cid, cb⟩ := hd
        dsimp only
        rcases hP : runFProgF fuel { st with delayedCallbacksQueue := rest } cb
          with ⟨oP, stP, trP⟩
        have HP := ihP { st with delayedCallbacksQueue := rest } cb hphi
        rw [hP] at HP
        have hne : Event.facStart key name ≠ Event.cbRun cid :=
          fun hc => Event.noConfusion hc
        cases oP with
        | ok w =>
          dsimp only
          rcases hE : executeDelayedF fuel stP with ⟨oE, stE, trE⟩
          have HE := ihE stP HP.1
          rw [hE] at HE
          have H2 := PhiKept.comp HP HE oE
          refine ⟨H2.1, H2.2.1, ?_⟩
          intro hmem
          rcases List.mem_cons.mp hmem with hc | hc
          · exact hne hc
          · exact H2.2.2 hc
        | err e =>
          dsimp only
          refine ⟨HP.1, HP.2.1, ?_⟩
          intro hmem
          rcases List.mem_cons.mp hmem with hc | hc
          · exact hne hc
          · exact HP.2.2 hc
        | timeout =>
          dsimp only
          refine ⟨HP.1, HP.2.1, ?_⟩
          intro hmem
          rcases List.mem_cons.mp hmem with hc | hc
          · exact hne hc
          · exact HP.2.2 hc

/-! ## The single-wrap bundle: when no user program throws a
`ServiceResolutionError` of its own, every error the engine raises is either
not a resolution error at all or a resolution error whose cause is not one —
i.e. no error is ever wrapped twice. -/

/-- Every factory stored in the registry is `noSRE`. -/
def registryNoSRE (registry : RegMap) : Prop :=
  ∀ p ∈ registry, ∀ r ∈ p.2, ∀ f, r.factory = some f → f.noSRE = true

/-- Every pending delayed callback is `noSRE`. -/
def queueNoSRE (q : List (Nat × FProg)) : Prop :=
  ∀ p ∈ q, (p.2).noSRE = true

/-- No user program reachable from the state throws an SRE of its own. -/
def StNoSRE (st : St) : Prop :=
  registryNoSRE st.registry ∧ queueNoSRE st.delayedCallbacksQueue

/-- An error has been wrapped at most once: if it is a resolution error, its
cause is not. -/
def wrappedOnce : JsError → Prop
  | .resolutionError _ _ cause => cause.isSRE = false
  | _ => True

/-- Errors of one interpreter step satisfy `wrappedOnce`. -/
def ErrOk (r : Res) : Prop := ∀ e, r.1 = .err e → wrappedOnce e

theorem wrappedOnce_of_not_SRE {e : JsError} (h : e.isSRE = false) : wrappedOnce e := by
  cases e <;> simp [wrappedOnce, JsError.isSRE] at h ⊢

theorem setInstanceFirst_factory_mem {rs : List Registration} {name : String}
    {inst : Value} {r2 : Registration} (h : r2 ∈ setInstanceFirst rs name inst) :
    ∃ r ∈ rs, r2.factory = r.factory := by
  induction rs with
  | nil => simp [setInstanceFirst] at h
  | cons r rest ih =>
    unfold setInstanceFirst at h
    by_cases hb : (r.name == name) = true
    · rw [hb] at h
      simp only [if_true] at h
      rcases List.mem_cons.mp h with hc | hc
      · exact ⟨r, List.mem_cons_self r rest, by rw [hc]⟩
      · exact ⟨r2, List.mem_cons.mpr (Or.inr hc), Eq.refl _⟩
    · rw [Bool.not_eq_true] at hb
      rw [hb] at h
      simp only [Bool.false_eq_true, if_false] at h
      rcases List.mem_cons.mp h with hc | hc
      · exact ⟨r, List.mem_cons_self r rest, by rw [hc]⟩
      · obtain ⟨r3, hr3, he⟩ := ih hc
        exact ⟨r3, List.mem_cons.mpr (Or.inr hr3), he⟩

theorem registryNoSRE_setRegistryInstance {registry : RegMap} {key name : String}
    {inst : Value} (h : registryNoSRE registry) :
    registryNoSRE (setRegistryInstance registry key name inst) := by
  intro p hp r hr f hf
  unfold setRegistryInstance at hp
  obtain ⟨q, hq, hqe⟩ := List.mem_map.mp hp
  by_cases hb : (q.1 == key) = true
  · rw [if_pos hb] at hqe
    rw [← hqe] at hr
    obtain ⟨r0, hr0, hre⟩ := setInstanceFirst_factory_mem hr
    exact h q hq r0 hr0 f (hre ▸ hf)
  · rw [Bool.not_eq_true] at hb
    rw [if_neg (by simp [hb])] at hqe
    rw [← hqe] at hr
    exact h q hq r hr f hf

theorem getServiceRegistration_noSRE {registry : RegMap} {key name : String}
    {r : Registration} (hno : registryNoSRE registry)
    (h : getServiceRegistration registry key name = .ok r) :
    ∀ f, r.factory = some f → f.noSRE = true := by
  unfold getServiceRegistration at h
  cases hg : RegMap.get registry key with
  | none => rw [hg] at h; simp at h
  | some regs =>
    rw [hg] at h
    dsimp only at h
    cases hf : regs.find? (fun r => r.name == name) with
    | none => rw [hf] at h; simp at h
    | some r2 =>
      rw [hf] at h
      injection h with h
      unfold RegMap.get at hg
      cases hgf : registry.find? (fun p => p.1 == key) with
      | none => rw [hgf] at hg; simp at hg
      | some p =>
        rw [hgf] at hg
        simp only [Option.map_some'] at hg
        injection hg with hg
        have hpmem := List.mem_of_find?_eq_some hgf
        have hrmem := List.mem_of_find?_eq_some hf
        rw [← hg] at hrmem
        intro f hfac
        exact hno p hpmem r2 hrmem f (h ▸ hfac)

theorem queueNoSRE_append {q : List (Nat × FProg)} {cid : Nat} {cb : FProg}
    (h : queueNoSRE q) (hcb : cb.noSRE = true) : queueNoSRE (q ++ [(cid, cb)]) := by
  intro p hp
  rcases List.mem_append.mp hp with hc | hc
  · exact h p hc
  · rw [List.mem_singleton] at hc
    rw [hc]
    exact hcb

theorem checkForCircularDependency_not_SRE {stack : List NamedKey} {e : JsError}
    (h : checkForCircularDependency stack = some e) : e.isSRE = false := by
  unfold checkForCircularDependency at h
  dsimp only at h
  cases h1 : (stack.map stringifyEntry).getLast? with
  | none => rw [h1] at h; simp at h
  | some current =>
    rw [h1] at h
    dsimp only at h
    cases h2 : current == "" with
    | true => rw [h2] at h; simp at h
    | false =>
      rw [h2] at h
      simp only [Bool.false_eq_true, if_false] at h
      cases h3 : (stack.map stringifyEntry).dropLast.findIdx? (fun s => s == current) with
      | none => rw [h3] at h; simp at h
      | some firstAppeared =>
        rw [h3] at h
        dsimp only at h
        split at h
        · exact absurd h (by simp)
        · split at h
          · injection h with h
            rw [← h]
            exact Eq.refl _
          · exact absurd h (by simp)

theorem noSREBundle : ∀ fuel : Nat,
    (∀ st key nameArg, StNoSRE st →
      ErrOk (resolveF fuel st key nameArg) ∧ StNoSRE (resolveF fuel st key nameArg).2.1) ∧
    (∀ st key name, StNoSRE st →
      ErrOk (doResolveF fuel st key name) ∧ StNoSRE (doResolveF fuel st key name).2.1) ∧
    (∀ st key name, StNoSRE st →
      ErrOk (resolveRegisteredF fuel st key name) ∧
      StNoSRE (resolveRegisteredF fuel st key name).2.1) ∧
    (∀ st key name factory, StNoSRE st → factory.noSRE = true →
      ErrOk (resolveWithErrorHandlingF fuel st key name factory) ∧
      StNoSRE (resolveWithErrorHandlingF fuel st key name factory).2.1) ∧
    (∀ st prog, StNoSRE st → prog.noSRE = true →
      ErrOk (runFProgF fuel st prog) ∧ StNoSRE (runFProgF fuel st prog).2.1) ∧
    (∀ st, StNoSRE st →
      ErrOk (executeDelayedF fuel st) ∧ StNoSRE (executeDelayedF fuel st).2.1) := by
  intro fuel
  induction fuel with
  | zero =>
    refine ⟨?_, ?_, ?_, ?_, ?_, ?_⟩ <;> intros <;>
      simp only [resolveF, doResolveF, resolveRegisteredF, resolveWithErrorHandlingF,
        runFProgF, executeDelayedF] <;>
      exact ⟨fun e he => absurd he (by simp), by assumption⟩
  | succ fuel ih =>
    obtain ⟨ihR, ihD, ihRR, ihW, ihP, ihE⟩ := ih
    refine ⟨?_, ?_, ?_, ?_, ?_, ?_⟩
    -- resolveF
    · intro st key nameArg hno
      simp only [resolveF]
      rcases hdo : doResolveF fuel
          { st with resolutionStack :=
              st.resolutionStack ++ [⟨key, nameArg.getD "default"⟩] } key
          (nameArg.getD "default") with ⟨o2, st2, tr2⟩
      have H2 := ihD { st with resolutionStack :=
        st.resolutionStack ++ [⟨key, nameArg.getD "default"⟩] } key
        (nameArg.getD "default") hno
      rw [hdo] at H2
      obtain ⟨H2e, H2n⟩ := H2
      cases o2 with
      | ok u =>
        dsimp only
        rcases hex : executeDelayedF fuel st2 with ⟨o3, st3, tr3⟩
        have H3 := ihE st2 H2n
        rw [hex] at H3
        obtain ⟨H3e, H3n⟩ := H3
        cases o3 with
        | ok w =>
          dsimp only
          exact ⟨fun e he => absurd he (by simp), H3n⟩
        | err e =>
          dsimp only
          refine ⟨fun e2 he2 => ?_, H3n⟩
          injection he2 with he2
          exact he2 ▸ H3e e (Eq.refl _)
        | timeout =>
          dsimp only
          exact ⟨fun e he => absurd he (by simp), H3n⟩
      | err e =>
        dsimp only
        refine ⟨fun e2 he2 => ?_, H2n⟩
        injection he2 with he2
        exact he2 ▸ H2e e (Eq.refl _)
      | timeout =>
        dsimp only
        exact ⟨fun e he => absurd he (by simp), H2n⟩
    -- doResolveF
    · intro st key name hno
      simp only [doResolveF]
      cases hfr : findInResolved st.resolved key name with
      | some v => exact ⟨fun e he => absurd he (by simp), hno⟩
      | none => dsimp only; exact ihRR st key name hno
    -- resolveRegisteredF
    · intro st key name hno
      simp only [resolveRegisteredF]
      cases hreg : getServiceRegistration st.registry key name with
      | error e =>
        refine ⟨fun e2 he2 => ?_, hno⟩
        injection he2 with he2
        rw [← he2]
        unfold getServiceRegistration at hreg
        cases hg : RegMap.get st.registry key with
        | none =>
          rw [hg] at hreg
          injection hreg with hreg
          rw [← hreg]
          exact trivial
        | some regs =>
          rw [hg] at hreg
          dsimp only at hreg
          cases hf : regs.find? (fun r => r.name == name) with
          | none =>
            rw [hf] at hreg
            injection hreg with hreg
            rw [← hreg]
            exact trivial
          | some r2 => rw [hf] at hreg; exact absurd hreg (by simp)
      | ok registration =>
        dsimp only
        cases hiv : registration.instVal.filter Value.truthy with
        | some v => exact ⟨fun e he => absurd he (by simp), hno⟩
        | none =>
          dsimp only
          cases hfac : registration.factory with
          | none =>
            refine ⟨fun e2 he2 => ?_, hno⟩
            injection he2 with he2
            rw [← he2]
            exact trivial
          | some factory =>
            dsimp only
            have hfno : factory.noSRE = true :=
              getServiceRegistration_noSRE hno.1 hreg factory hfac
            rcases hW : resolveWithErrorHandlingF fuel st key name factory
              with ⟨oW, stW, trW⟩
            have HW := ihW st key name factory hno hfno
            rw [hW] at HW
            obtain ⟨HWe, HWn⟩ := HW
            cases oW with
            | ok inst =>
              dsimp only
              cases hl : registration.lifecycle with
              | transient =>
                simp only [show ((Lifecycle.transient == Lifecycle.singleton ||
                  Lifecycle.transient == Lifecycle.request) = true) = False by simp,
                  if_false, show ((Lifecycle.transient == Lifecycle.singleton) = true) = False
                  by simp, Bool.false_eq_true]
                exact ⟨fun e he => absurd he (by simp), HWn⟩
              | singleton =>
                simp only [show ((Lifecycle.singleton == Lifecycle.singleton ||
                  Lifecycle.singleton == Lifecycle.request) = true) = True by simp,
                  if_true, show ((Lifecycle.singleton == Lifecycle.singleton) = true) = True
                  by simp]
                refine ⟨fun e he => absurd he (by simp), ?_, ?_⟩
                · exact registryNoSRE_setRegistryInstance HWn.1
                · exact HWn.2
              | request =>
                simp only [show ((Lifecycle.request == Lifecycle.singleton ||
                  Lifecycle.request == Lifecycle.request) = true) = True by simp, if_true,
                  show ((Lifecycle.request == Lifecycle.singleton) = true) = False by simp,
                  Bool.false_eq_true, if_false]
                exact ⟨fun e he => absurd he (by simp), HWn.1, HWn.2⟩
            | err e =>
              dsimp only
              refine ⟨fun e2 he2 => ?_, HWn⟩
              injection he2 with he2
              exact he2 ▸ HWe e (Eq.refl _)
            | timeout =>
              dsimp only
              exact ⟨fun e he => absurd he (by simp), HWn⟩
    -- resolveWithErrorHandlingF
    · intro st key name factory hno hfno
      simp only [resolveWithErrorHandlingF]
      cases hc : checkForCircularDependency st.resolutionStack with
      | some circErr =>
        refine ⟨fun e2 he2 => ?_, hno⟩
        injection he2 with he2
        rw [← he2]
        show circErr.isSRE = false
        exact checkForCircularDependency_not_SRE hc
      | none =>
        dsimp only
        rcases hP : runFProgF fuel st factory with ⟨oP, stP, trP⟩
        have HP := ihP st factory hno hfno
        rw [hP] at HP
        obtain ⟨HPe, HPn⟩ := HP
        cases oP with
        | ok v =>
          dsimp only
          exact ⟨fun e he => absurd he (by simp), HPn⟩
        | err e =>
          dsimp only
          cases he : e.isSRE with
          | true =>
            simp only [he, if_true]
            refine ⟨fun e2 he2 => ?_, HPn⟩
            injection he2 with he2
            exact he2 ▸ HPe e (Eq.refl _)
          | false =>
            simp only [he, Bool.false_eq_true, if_false]
            refine ⟨fun e2 he2 => ?_, HPn⟩
            injection he2 with he2
            rw [← he2]
            exact he
        | timeout =>
          dsimp only
          exact ⟨fun e he => absurd he (by simp), HPn⟩
    -- runFProgF
    · intro st prog hno hpno
      cases prog with
      | retFresh =>
        simp only [runFProgF]
        exact ⟨fun e he => absurd he (by simp), hno⟩
      | retConst v =>
        simp only [runFProgF]
        exact ⟨fun e he => absurd he (by simp), hno⟩
      | throwE e =>
        simp only [runFProgF]
        refine ⟨fun e2 he2 => ?_, hno⟩
        injection he2 with he2
        rw [← he2]
        unfold FProg.noSRE at hpno
        rw [Bool.not_eq_true'] at hpno
        exact wrappedOnce_of_not_SRE hpno
      | seqResolve k2 n2 k =>
        simp only [runFProgF]
        have hkno : k.noSRE = true := hpno
        rcases hR : resolveF fuel st k2 n2 with ⟨oR, stR, trR⟩
        have HR := ihR st k2 n2 hno
        rw [hR] at HR
        obtain ⟨HRe, HRn⟩ := HR
        cases oR with
        | ok v =>
          dsimp only
          rcases hK : runFProgF fuel stR k with ⟨oK, stK, trK⟩
          have HK := ihP stR k HRn hkno
          rw [hK] at HK
          obtain ⟨HKe, HKn⟩ := HK
          exact ⟨fun e he => HKe e (by dsimp only at he; exact he), HKn⟩
        | err e =>
          dsimp only
          refine ⟨fun e2 he2 => ?_, HRn⟩
          injection he2 with he2
          exact he2 ▸ HRe e (Eq.refl _)
        | timeout =>
          dsimp only
          exact ⟨fun e he => absurd he (by simp), HRn⟩
      | seqDelay cid cb k =>
        simp only [runFProgF]
        unfold FProg.noSRE at hpno
        rw [Bool.and_eq_true] at hpno
        have hno2 : StNoSRE { st with delayedCallbacksQueue :=
            st.delayedCallbacksQueue ++ [(cid, cb)] } :=
          ⟨hno.1, queueNoSRE_append hno.2 hpno.1⟩
        exact ihP _ k hno2 hpno.2
    -- executeDelayedF
    · intro st hno
      simp only [executeDelayedF]
      cases hq : st.delayedCallbacksQueue with
      | nil =>
        dsimp only
        exact ⟨fun e he => absurd he (by simp), hno⟩
      | cons hd rest =>
        obtain ⟨cid, cb⟩ := hd
        dsimp only
        have hcbno : cb.noSRE = true := by
          have := hno.2 (cid, cb) (by rw [hq]; exact List.mem_cons_self _ _)
          exact this
        have hrest : queueNoSRE rest := by
          intro p hp
          exact hno.2 p (by rw [hq]; exact List.mem_cons.mpr (Or.inr hp))
        have hno1 : StNoSRE { st with delayedCallbacksQueue := rest } := ⟨hno.1, hrest⟩
        rcases hP : runFProgF fuel { st with delayedCallbacksQueue := rest } cb
          with ⟨oP, stP, trP⟩
        have HP := ihP { st with delayedCallbacksQueue := rest } cb hno1 hcbno
        rw [hP] at HP
        obtain ⟨HPe, HPn⟩ := HP
        cases oP with
        | ok v =>
          dsimp only
          rcases hE : executeDelayedF fuel stP with ⟨oE, stE, trE⟩
          have HE := ihE stP HPn
          rw [hE] at HE
          obtain ⟨HEe, HEn⟩ := HE
          exact ⟨fun e he => HEe e (by dsimp only at he; exact he), HEn⟩
        | err e =>
          dsimp only
          refine ⟨fun e2 he2 => ?_, HPn⟩
          injection he2 with he2
          exact he2 ▸ HPe e (Eq.refl _)
        | timeout =>
          dsimp only
          exact ⟨fun e he => absurd he (by simp), HPn⟩

/-! ## Fresh-object allocation facts -/

theorem resolveF_fresh_le (fuel : Nat) (st : St) (key : String) (nameArg : Option String) :
    st.fresh ≤ (resolveF fuel st key nameArg).2.1.fresh :=
  ((stateBundle fuel).1 st key nameArg).1

theorem executeDelayedF_fresh_le (fuel : Nat) (st : St) :
    st.fresh ≤ (executeDelayedF fuel st).2.1.fresh :=
  ((stateBundle fuel).2.2.2.2.2 st).1

theorem resolveF_stack_restored {fuel : Nat} {st : St} {key : String}
    {nameArg : Option String} (h : (resolveF fuel st key nameArg).1 ≠ .timeout) :
    (resolveF fuel st key nameArg).2.1.resolutionStack = st.resolutionStack :=
  ((stateBundle fuel).1 st key nameArg).2.2 h

theorem resolveF_regPres (fuel : Nat) (st : St) (key : String) (nameArg : Option String) :
    RegPres st.registry (resolveF fuel st key nameArg).2.1.registry :=
  ((stateBundle fuel).1 st key nameArg).2.1

/-- The value of a factory whose terminal instruction allocates a fresh
object is an object allocated during that very invocation: its id is at
least the counter at entry and below the counter at return. -/
theorem runFProg_terminalFresh : ∀ fuel st prog v st2 tr,
    prog.terminalFresh = true → runFProgF fuel st prog = (.ok v, st2, tr) →
    ∃ m, v = .vObj m ∧ st.fresh ≤ m ∧ m < st2.fresh := by
  intro fuel
  induction fuel with
  | zero =>
    intro st prog v st2 tr hterm h
    simp [runFProgF] at h
  | succ fuel ih =>
    intro st prog v st2 tr hterm h
    cases prog with
    | retFresh =>
      simp only [runFProgF] at h
      injection h with h1 h2
      injection h2 with h2 h3
      injection h1 with h1
      refine ⟨st.fresh, h1.symm, Nat.le_refl _, ?_⟩
      rw [← h2]
      exact Nat.lt_succ_self _
    | retConst w => simp [FProg.terminalFresh] at hterm
    | throwE e => simp [FProg.terminalFresh] at hterm
    | seqResolve k2 n2 k =>
      simp only [runFProgF] at h
      rcases hR : resolveF fuel st k2 n2 with ⟨oR, stR, trR⟩
      rw [hR] at h
      cases oR with
      | ok w =>
        dsimp only at h
        rcases hK : runFProgF fuel stR k with ⟨oK, stK, trK⟩
        rw [hK] at h
        dsimp only at h
        injection h with h1 h2
        injection h2 with h2 h3
        rw [h1] at hK
        obtain ⟨m, hm1, hm2, hm3⟩ := ih stR k v stK trK hterm hK
        have hmono : st.fresh ≤ stR.fresh := by
          have := resolveF_fresh_le fuel st k2 n2
          rw [hR] at this
          exact this
        exact ⟨m, hm1, Nat.le_trans hmono hm2, h2 ▸ hm3⟩
      | err e =>
        dsimp only at h
        injection h with h1 h2
        exact absurd h1 (by simp)
      | timeout =>
        dsimp only at h
        injection h with h1 h2
        exact absurd h1 (by simp)
    | seqDelay cid cb k =>
      simp only [runFProgF] at h
      exact ih { st with delayedCallbacksQueue := st.delayedCallbacksQueue ++ [(cid, cb)] }
        k v st2 tr hterm h

/-! ## Small facts used to destructure a root resolution -/

theorem filter_truthy_some {o : Option Value} {v : Value}
    (h : o.filter Value.truthy = some v) : o = some v ∧ v.truthy = true := by
  cases o with
  | none => simp [Option.filter] at h
  | some u =>
    unfold Option.filter at h
    dsimp only at h
    cases ht : u.truthy with
    | true =>
      rw [ht] at h
      simp only [if_true] at h
      injection h with h
      rw [h] at ht
      exact ⟨by rw [h], ht⟩
    | false => rw [ht] at h; simp at h

theorem stringifyEntry_ne_empty (e : NamedKey) : (stringifyEntry e == "") = false := by
  have h1 : 0 < (stringifyEntry e).length := by
    unfold stringifyEntry stringifyServiceKey
    rw [String.length_append, String.length_append, String.length_append]
    have h2 : ("[" : String).length = 1 := by decide
    omega
  simp only [beq_eq_false_iff_ne, ne_eq]
  intro hc
  rw [hc] at h1
  simp at h1

/-- On a one-entry resolution stack (a root frame) the cycle check never
fires. -/
theorem checkForCircularDependency_singleton (e : NamedKey) :
    checkForCircularDependency [e] = none := by
  unfold checkForCircularDependency
  simp [stringifyEntry_ne_empty e, List.findIdx?]

/-- `findInResolved` of the empty storage misses. -/
theorem findInResolved_nil (key name : String) : findInResolved [] key name = none :=
  Eq.refl _

theorem find?_setInstanceFirst_same {rs : List Registration} {name : String}
    {r : Registration} (h : rs.find? (fun q => q.name == name) = some r) (inst : Value) :
    (setInstanceFirst rs name inst).find? (fun q => q.name == name) =
      some { r with instVal := some inst } := by
  induction rs with
  | nil => simp at h
  | cons q rest ih =>
    unfold setInstanceFirst
    cases hb : (q.name == name) with
    | true =>
      simp only [List.find?, hb] at h
      injection h with h
      subst h
      simp [List.find?, hb]
    | false =>
      simp only [List.find?, hb] at h
      simp only [Bool.false_eq_true, if_false]
      simp only [List.find?, hb]
      exact ih h

theorem regLookup_setRegistryInstance_same {registry : RegMap} {key name : String}
    {r : Registration} (h : regLookup registry key name = some r) (inst : Value) :
    regLookup (setRegistryInstance registry key name inst) key name =
      some { r with instVal := some inst } := by
  unfold regLookup at h ⊢
  rw [RegMap.get_setRegistryInstance]
  cases hg : RegMap.get registry key with
  | none => rw [hg] at h; simp at h
  | some rs =>
    rw [hg] at h
    dsimp only at h
    simp only [Option.map_some', beq_self_eq_true, if_true]
    exact find?_setInstanceFirst_same h inst

/-! ## Destructuring a successful root resolution of a registered service -/

/-- A successful root `resolve` of a `(key, name)` registered with the
`singleton` or `request` lifecycle either hit the truthy cached `instance`
(leaving the context untouched) or ran the factory and saved the produced
truthy value in the context's resolved storage; with the `singleton`
lifecycle the value also ends up in the registry record's `instance` slot. -/
theorem root_resolve_saved {reg : RegMap} {fresh : Nat} {k : String} {nm : Option String}
    {r : Registration} {fuel : Nat} {v : Value} {st1 : St} {tr1 : List Event}
    (hr : regLookup reg k (nm.getD "default") = some r)
    (hl : r.lifecycle = .singleton ∨ r.lifecycle = .request)
    (h : resolveF fuel (initCtx reg fresh) k nm = (.ok v, st1, tr1))
    (hv : v.truthy = true) :
    (findInResolved st1.resolved k (nm.getD "default") = some v ∨
      (st1 = initCtx reg fresh ∧ tr1 = [.resRet k (nm.getD "default")])) ∧
    (r.lifecycle = .singleton → ∃ r2,
      regLookup st1.registry k (nm.getD "default") = some r2 ∧ r2.instVal = some v) := by
  cases fuel with
  | zero => simp [resolveF] at h
  | succ f =>
    simp only [resolveF, initCtx, List.nil_append] at h
    cases f with
    | zero => simp [doResolveF] at h
    | succ f1 =>
      simp only [doResolveF] at h
      rw [show findInResolved ([] : ResolvedMap) k (nm.getD "default") = none from rfl] at h
      dsimp only at h
      cases f1 with
      | zero => simp [resolveRegisteredF] at h
      | succ f2 =>
        simp only [resolveRegisteredF] at h
        rw [getServiceRegistration_of_regLookup hr] at h
        dsimp only at h
        cases hiv : r.instVal.filter Value.truthy with
        | some w =>
          rw [hiv] at h
          dsimp only at h
          simp only [executeDelayedF] at h
          injection h with h1 h23
          injection h23 with h2 h3
          injection h1 with h1
          refine ⟨Or.inr ⟨?_, ?_⟩, fun hsing => ?_⟩
          · rw [← h2]
            rfl
          · rw [← h3]
            rfl
          · refine ⟨{ r with instVal := some v }, ?_, Eq.refl _⟩
            rw [← h2]
            show regLookup reg k (nm.getD "default") = some { r with instVal := some v }
            obtain ⟨hiv1, hiv2⟩ := filter_truthy_some hiv
            rw [h1] at hiv1
            rw [hr, ← hiv1]
        | none =>
          rw [hiv] at h
          dsimp only at h
          cases hfac : r.factory with
          | none => rw [hfac] at h; simp at h
          | some fprog =>
            rw [hfac] at h
            dsimp only at h
            rcases hW : resolveWithErrorHandlingF f2
              ⟨reg, [], [⟨k, nm.getD "default"⟩], [], fresh⟩ k (nm.getD "default") fprog
              with ⟨oW, stW, trW⟩
            rw [hW] at h
            cases oW with
            | ok inst =>
              dsimp only at h
              have hregW : RegPres reg stW.registry := by
                have hsb := ((stateBundle f2).2.2.2.1
                  ⟨reg, [], [⟨k, nm.getD "default"⟩], [], fresh⟩ k (nm.getD "default")
                  fprog).2.1
                rw [hW] at hsb
                exact hsb
              rcases hl with hl | hl
              -- singleton lifecycle
              · rw [hl] at h
                simp only [show ((Lifecycle.singleton == Lifecycle.singleton ||
                  Lifecycle.singleton == Lifecycle.request) = true) = True by simp,
                  if_true, show ((Lifecycle.singleton == Lifecycle.singleton) = true) = True
                  by simp] at h
                rcases hex : executeDelayedF (f2 + 1 + 1)
                    ⟨setRegistryInstance stW.registry k (nm.getD "default") inst,
                      saveInResolved stW.resolved k inst (nm.getD "default"),
                      stW.resolutionStack, stW.delayedCallbacksQueue, stW.fresh⟩
                    with ⟨oE, stE, trE⟩
                rw [hex] at h
                cases oE with
                | ok u =>
                  dsimp only at h
                  injection h with h1 h23
                  injection h23 with h2 h3
                  injection h1 with h1
                  rw [h1] at hW hex
                  have hphi4 : Phi k (nm.getD "default") v
                      ⟨setRegistryInstance stW.registry k (nm.getD "default") v,
                        saveInResolved stW.resolved k v (nm.getD "default"),
                        stW.resolutionStack, stW.delayedCallbacksQueue, stW.fresh⟩ := by
                    show findInResolved (saveInResolved stW.resolved k v (nm.getD "default"))
                      k (nm.getD "default") = some v
                    rw [findInResolved_save_same, hv]
                    simp
                  have hkept := (phiBundle k (nm.getD "default") v (f2 + 1 + 1)).2.2.2.2.2
                    _ hphi4
                  rw [hex] at hkept
                  obtain ⟨hk1, hk2, hk3⟩ := hkept
                  constructor
                  · left
                    rw [← h2]
                    exact hk1
                  · intro hsing
                    obtain ⟨r2, hr2, hs1, hs2, hs3⟩ := hregW.lookup_sig hr
                    refine ⟨{ r2 with instVal := some v }, ?_, Eq.refl _⟩
                    rw [← h2]
                    show regLookup stE.registry k (nm.getD "default") =
                      some { r2 with instVal := some v }
                    rw [hk2]
                    exact regLookup_setRegistryInstance_same hr2 v
                | err e =>
                  dsimp only at h
                  injection h with h1 h23
                  exact absurd h1 (by simp)
                | timeout =>
                  dsimp only at h
                  injection h with h1 h23
                  exact absurd h1 (by simp)
              -- request lifecycle
              · rw [hl] at h
                simp only [show ((Lifecycle.request == Lifecycle.singleton ||
                  Lifecycle.request == Lifecycle.request) = true) = True by simp, if_true,
                  show ((Lifecycle.request == Lifecycle.singleton) = true) = False by simp,
                  Bool.false_eq_true, if_false] at h
                rcases hex : executeDelayedF (f2 + 1 + 1)
                    ⟨stW.registry, saveInResolved stW.resolved k inst (nm.getD "default"),
                      stW.resolutionStack, stW.delayedCallbacksQueue, stW.fresh⟩
                    with ⟨oE, stE, trE⟩
                rw [hex] at h
                cases oE with
                | ok u =>
                  dsimp only at h
                  injection h with h1 h23
                  injection h23 with h2 h3
                  injection h1 with h1
                  rw [h1] at hW hex
                  have hphi4 : Phi k (nm.getD "default") v
                      ⟨stW.registry, saveInResolved stW.resolved k v (nm.getD "default"),
                        stW.resolutionStack, stW.delayedCallbacksQueue, stW.fresh⟩ := by
                    show findInResolved (saveInResolved stW.resolved k v (nm.getD "default"))
                      k (nm.getD "default") = some v
                    rw [findInResolved_save_same, hv]
                    simp
                  have hkept := (phiBundle k (nm.getD "default") v (f2 + 1 + 1)).2.2.2.2.2
                    _ hphi4
                  rw [hex] at hkept
                  obtain ⟨hk1, hk2, hk3⟩ := hkept
                  constructor
                  · left
                    rw [← h2]
                    exact hk1
                  · intro hsing
                    rw [hsing] at hl
                    exact absurd hl (by simp)
                | err e =>
                  dsimp only at h
                  injection h with h1 h23
                  exact absurd h1 (by simp)
                | timeout =>
                  dsimp only at h
                  injection h with h1 h23
                  exact absurd h1 (by simp)
            | err e =>
              dsimp only at h
              injection h with h1 h23
              exact absurd h1 (by simp)
            | timeout =>
              dsimp only at h
              injection h with h1 h23
              exact absurd h1 (by simp)

/-- A successful root `resolve` of a `(key, name)` registered with the
`request` lifecycle, no stored instance, and a factory whose terminal
instruction allocates a fresh object, runs that factory and returns an
object allocated during this very call: its id lies in the interval of
counters spanned by the call, and the factory-invocation event is in the
trace. -/
theorem root_resolve_factory_fresh {reg : RegMap} {fresh : Nat} {k : String}
    {nm : Option String} {r : Registration} {f : FProg} {fuel : Nat} {v : Value}
    {st1 : St} {tr1 : List Event}
    (hr : regLookup reg k (nm.getD "default") = some r)
    (hl : r.lifecycle = .request)
    (hiv : r.instVal.filter Value.truthy = none)
    (hf : r.factory = some f)
    (hterm : f.terminalFresh = true)
    (h : resolveF fuel (initCtx reg fresh) k nm = (.ok v, st1, tr1)) :
    (∃ m, v = .vObj m ∧ fresh ≤ m ∧ m < st1.fresh) ∧
    Event.facStart k (nm.getD "default") ∈ tr1 := by
  cases fuel with
  | zero => simp [resolveF] at h
  | succ fl =>
    simp only [resolveF, initCtx, List.nil_append] at h
    cases fl with
    | zero => simp [doResolveF] at h
    | succ f1 =>
      simp only [doResolveF] at h
      rw [show findInResolved ([] : ResolvedMap) k (nm.getD "default") = none from rfl] at h
      dsimp only at h
      cases f1 with
      | zero => simp [resolveRegisteredF] at h
      | succ f2 =>
        simp only [resolveRegisteredF] at h
        rw [getServiceRegistration_of_regLookup hr] at h
        dsimp only at h
        rw [hiv] at h
        dsimp only at h
        rw [hf] at h
        dsimp only at h
        rcases hW : resolveWithErrorHandlingF f2
          ⟨reg, [], [⟨k, nm.getD "default"⟩], [], fresh⟩ k (nm.getD "default") f
          with ⟨oW, stW, trW⟩
        rw [hW] at h
        cases oW with
        | ok inst =>
          dsimp only at h
          rw [hl] at h
          simp only [show ((Lifecycle.request == Lifecycle.singleton ||
            Lifecycle.request == Lifecycle.request) = true) = True by simp, if_true,
            show ((Lifecycle.request == Lifecycle.singleton) = true) = False by simp,
            Bool.false_eq_true, if_false] at h
          rcases hex : executeDelayedF (f2 + 1 + 1)
              ⟨stW.registry, saveInResolved stW.resolved k inst (nm.getD "default"),
                stW.resolutionStack, stW.delayedCallbacksQueue, stW.fresh⟩
              with ⟨oE, stE, trE⟩
          rw [hex] at h
          cases oE with
          | ok u =>
            dsimp only at h
            injection h with h1 h23
            injection h23 with h2 h3
            injection h1 with h1
            -- now unfold the error-handling frame to reach the factory run
            cases f2 with
            | zero =>
              simp [resolveWithErrorHandlingF] at hW
            | succ f3 =>
              simp only [resolveWithErrorHandlingF] at hW
              rw [checkForCircularDependency_singleton] at hW
              dsimp only at hW
              rcases hP : runFProgF f3 ⟨reg, [], [⟨k, nm.getD "default"⟩], [], fresh⟩ f
                with ⟨oP, stP, trP⟩
              rw [hP] at hW
              cases oP with
              | ok w =>
                dsimp only at hW
                injection hW with hw1 hw23
                injection hw23 with hw2 hw3
                injection hw1 with hw1
                obtain ⟨m, hm1, hm2, hm3⟩ :=
                  runFProg_terminalFresh f3 _ f w stP trP hterm hP
                have hfr1 : stW.fresh ≤ stE.fresh := by
                  have hmono := executeDelayedF_fresh_le (f3 + 1 + 1 + 1)
                    ⟨stW.registry, saveInResolved stW.resolved k inst (nm.getD "default"),
                      stW.resolutionStack, stW.delayedCallbacksQueue, stW.fresh⟩
                  rw [hex] at hmono
                  exact hmono
                constructor
                · refine ⟨m, ?_, hm2, ?_⟩
                  · rw [← h1, ← hw1, hm1]
                  · have hst1 : st1.fresh = stE.fresh := by rw [← h2]
                    rw [hst1]
                    have hWfresh : stP.fresh = stW.fresh := by rw [hw2]
                    rw [hWfresh] at hm3
                    omega
                · rw [← h3, ← hw3]
                  simp
              | err e =>
                dsimp only at hW
                cases he : e.isSRE with
                | true =>
                  simp only [he, if_true] at hW
                  injection hW with hw1 hw23
                  exact absurd hw1 (by simp)
                | false =>
                  simp only [he, Bool.false_eq_true, if_false] at hW
                  injection hW with hw1 hw23
                  exact absurd hw1 (by simp)
              | timeout =>
                dsimp only at hW
                injection hW with hw1 hw23
                exact absurd hw1 (by simp)
          | err e =>
            dsimp only at h
            injection h with h1 h23
            exact absurd h1 (by simp)
          | timeout =>
            dsimp only at h
            injection h with h1 h23
            exact absurd h1 (by simp)
        | err e =>
          dsimp only at h
          injection h with h1 h23
          exact absurd h1 (by simp)
        | timeout =>
          dsimp only at h
          injection h with h1 h23
          exact absurd h1 (by simp)

/-- Root resolution of a `(key, name)` whose registration holds a truthy
`instance` returns that instance without running any factory and without
changing the context. -/
theorem root_resolve_instance_hit {reg : RegMap} {k : String} {nm : Option String}
    {r : Registration} {v : Value}
    (hr : regLookup reg k (nm.getD "default") = some r)
    (hiv : r.instVal.filter Value.truthy = some v) (fresh m : Nat) :
    rootResolve (m + 1 + 1 + 1) reg fresh k nm =
      (.ok v, initCtx reg fresh, [.resRet k (nm.getD "default")]) := by
  unfold rootResolve
  simp only [resolveF, initCtx, List.nil_append]
  simp only [doResolveF]
  rw [show findInResolved ([] : ResolvedMap) k (nm.getD "default") = none from rfl]
  dsimp only
  simp only [resolveRegisteredF]
  rw [getServiceRegistration_of_regLookup hr]
  dsimp only
  rw [hiv]
  dsimp only
  simp only [executeDelayedF]
  rfl

/-- Within one context at a fixed fuel, a second `resolve` of the same
`(key, name)` (with `singleton` or `request` lifecycle, first result truthy)
returns the first call's value. -/
theorem second_resolve_same {reg : RegMap} {fresh : Nat} {k : String} {nm : Option String}
    {r : Registration} {fuel : Nat} {v w : Value} {st1 st2 : St} {tr1 tr2 : List Event}
    (hr : regLookup reg k (nm.getD "default") = some r)
    (hl : r.lifecycle = .singleton ∨ r.lifecycle = .request)
    (h1 : resolveF fuel (initCtx reg fresh) k nm = (.ok v, st1, tr1))
    (hv : v.truthy = true)
    (h2 : resolveF fuel st1 k nm = (.ok w, st2, tr2)) : w = v := by
  obtain ⟨hc, _⟩ := root_resolve_saved hr hl h1 hv
  rcases hc with hphi | ⟨hst, htr⟩
  · exact ((phiBundle k (nm.getD "default") v fuel).1 st1 k nm hphi).2 rfl rfl w
      (by rw [h2])
  · rw [hst, h1] at h2
    injection h2 with h2a h2b
    injection h2a with h2a
    exact h2a.symm

/-! ## Claim theorems -/

/-- C8: the resolution-path stack obeys strict stack discipline — every
`resolve` call pushes its entry on entry and pops it on every exit path,
including exits by a thrown error, so after any `resolve` call returns or
throws the stack equals its contents from before the call. -/
theorem C8_stack_discipline : ∀ fuel st key nameArg out st2 tr,
    resolveF fuel st key nameArg = (out, st2, tr) → out ≠ .timeout →
    st2.resolutionStack = st.resolutionStack := by
  intro fuel st key nameArg out st2 tr h hnt
  have hs := ((stateBundle fuel).1 st key nameArg).2.2
  rw [h] at hs
  exact hs hnt

/-- Example registry for the C8 witness: a constant and a factory that
throws, exercising both the value-return and the thrown-error exit path. -/
def c8reg : RegMap :=
  [("A", [{ name := "default", instVal := some (.vObj 5), factory := none,
            lifecycle := .transient }]),
   ("B", [{ name := "default", instVal := none, factory := some (.throwE (.userError 3)),
            lifecycle := .transient }])]

theorem C8_stack_discipline_witness :
    (resolveF 6 (initCtx c8reg 0) "A" none).2.1.resolutionStack =
      (initCtx c8reg 0).resolutionStack ∧
    (resolveF 6 (initCtx c8reg 0) "B" none).2.1.resolutionStack =
      (initCtx c8reg 0).resolutionStack :=
  ⟨C8_stack_discipline 6 (initCtx c8reg 0) "A" none _ _ _ rfl (by decide),
   C8_stack_discipline 6 (initCtx c8reg 0) "B" none _ _ _ rfl (by decide)⟩

/-- Example registry refuting C2 as stated: service A's factory first
enqueues callback 1 via `delay`, then resolves the constant B; the nested
`resolve` of B drains the shared queue, so callback 1 runs before A's
factory has returned. -/
def c2reg : RegMap :=
  [("A", [{ name := "default", instVal := none,
            factory := some (.seqDelay 1 (.retConst .vNull) (.seqResolve "B" none .retFresh)),
            lifecycle := .transient }]),
   ("B", [{ name := "default", instVal := some (.vObj 99), factory := none,
            lifecycle := .transient }])]

/-- C2 counterexample: in the run above the trace is
`[facStart A, cbRun 1, resRet B, facRet A, resRet A]` — the execution of
callback 1 (position 1) precedes the return of the factory that enqueued it
(position 3), contradicting "the callback is executed after that resolve
call's factory has returned". -/
theorem C2_delay_counterexample :
    (rootResolve 10 c2reg 0 "A" none).2.2 =
      [.facStart "A" "default", .cbRun 1, .resRet "B" "default",
       .facRet "A" "default", .resRet "A" "default"] ∧
    (rootResolve 10 c2reg 0 "A" none).2.2.findIdx?
      (fun e => e == .cbRun 1) = some 1 ∧
    (rootResolve 10 c2reg 0 "A" none).2.2.findIdx?
      (fun e => e == .facRet "A" "default") = some 3 := by
  refine ⟨?_, ?_, ?_⟩ <;> decide

/-- C2 (amended): delayed callbacks are executed in FIFO (enqueue) order —
the queue is consumed from the front only, each dequeued callback's
execution event entering the trace in dequeue order — and every callback
still pending when a `resolve` call completes successfully has been
executed before that call returns (the queue is empty on success). A
callback may however run before the factory that enqueued it has returned,
namely inside the first resolve frame that completes after the enqueue. -/
theorem C2_delay_amended :
    (∀ fuel st key nameArg v st2 tr,
      resolveF fuel st key nameArg = (.ok v, st2, tr) →
      st2.delayedCallbacksQueue = []) ∧
    (∀ fuel st u st2 tr, executeDelayedF fuel st = (.ok u, st2, tr) →
      st2.delayedCallbacksQueue = [] ∧
      List.Sublist (st.delayedCallbacksQueue.map (fun p => Event.cbRun p.1)) tr) ∧
    (∀ fuel st cid cb rest, st.delayedCallbacksQueue = (cid, cb) :: rest →
      (executeDelayedF (fuel + 1) st).2.2.head? = some (.cbRun cid)) := by
  refine ⟨resolveF_ok_queue_empty, ?_, ?_⟩
  · intro fuel st u st2 tr h
    have hempty := executeDelayed_drains fuel st u st2 tr h
    refine ⟨hempty, ?_⟩
    have hq := (queueBundle fuel).2.2.2.2.2 st
    rw [h] at hq
    obtain ⟨c, k, x, h1, h2, h3⟩ := hq
    have hk : k = [] ∧ x = [] := by
      dsimp only at h2
      rw [hempty] at h2
      exact ⟨List.append_eq_nil.mp h2.symm |>.1, List.append_eq_nil.mp h2.symm |>.2⟩
    rw [h1, hk.1, List.append_nil]
    exact h3
  · intro fuel st cid cb rest hq
    simp only [executeDelayedF]
    rw [hq]
    dsimp only
    rcases hP : runFProgF fuel { st with delayedCallbacksQueue := rest } cb
      with ⟨oP, stP, trP⟩
    cases oP with
    | ok v =>
      dsimp only
      rcases hE : executeDelayedF fuel stP with ⟨oE, stE, trE⟩
      dsimp only
      rfl
    | err e => rfl
    | timeout => rfl

/-- Queue state for the C2 amended-claim witness: one pending callback. -/
def c2st : St := ⟨[], [], [], [(5, .retConst .vNull)], 0⟩

theorem C2_delay_amended_witness :
    (resolveF 10 (initCtx c2reg 0) "A" none).2.1.delayedCallbacksQueue = [] ∧
    (((executeDelayedF 3 c2st).2.1.delayedCallbacksQueue = []) ∧
      List.Sublist (c2st.delayedCallbacksQueue.map (fun p => Event.cbRun p.1))
        (executeDelayedF 3 c2st).2.2) ∧
    (executeDelayedF (2 + 1) c2st).2.2.head? = some (.cbRun 5) :=
  ⟨C2_delay_amended.1 10 (initCtx c2reg 0) "A" none (.vObj 0)
      (resolveF 10 (initCtx c2reg 0) "A" none).2.1
      (resolveF 10 (initCtx c2reg 0) "A" none).2.2 rfl,
   C2_delay_amended.2.1 3 c2st .vNull (executeDelayedF 3 c2st).2.1
      (executeDelayedF 3 c2st).2.2 rfl,
   C2_delay_amended.2.2 2 c2st 5 (.retConst .vNull) [] rfl⟩

/-- In a two-element `resolveTuple` of the same `(key, name)` with a
cacheable (`singleton` or `request`) lifecycle and truthy first result, the
second component repeats the first. -/
theorem tuple_second_same {reg : RegMap} {fresh : Nat} {k : String} {nm : Option String}
    {r : Registration} {fuel : Nat} {vs : List Value} {st : St} {tr : List Event}
    {v w : Value}
    (hr : regLookup reg k (nm.getD "default") = some r)
    (hl : r.lifecycle = .singleton ∨ r.lifecycle = .request)
    (htup : rootResolveTuple fuel reg fresh [(k, nm), (k, nm)] = (.ok vs, st, tr))
    (hvs : vs = [v, w]) (hv : v.truthy = true) : w = v := by
  subst hvs
  simp only [rootResolveTuple, resolveTupleF] at htup
  rcases hA : resolveF fuel (initCtx reg fresh) k nm with ⟨oA, sA, tA⟩
  rw [hA] at htup
  cases oA with
  | ok vA =>
    dsimp only at htup
    rcases hB : resolveF fuel sA k nm with ⟨oB, sB, tB⟩
    rw [hB] at htup
    cases oB with
    | ok vB =>
      dsimp only at htup
      injection htup with h1 h2
      injection h1 with h1
      injection h1 with h1a h1b
      injection h1b with h1b
      rw [h1a] at hA
      rw [← h1b]
      exact second_resolve_same hr hl hA hv hB
    | err e => dsimp only at htup; injection htup with h1 h2; cases h1
    | timeout => dsimp only at htup; injection htup with h1 h2; cases h1
  | err e => dsimp only at htup; injection htup with h1 h2; cases h1
  | timeout => dsimp only at htup; injection htup with h1 h2; cases h1

/-- C3: for a `(key, name)` registered with `singleton` lifecycle, two
resolutions of that `(key, name)` return the identical value: within one root
resolution call (a two-element `resolveTuple`) the second result equals the
first, and across separate root resolution calls a later root resolve on the
registry left by the first call returns the first call's value immediately
from the cached instance, with no factory-invocation event in its trace. -/
theorem C3_singleton_idempotent :
    (∀ reg fresh k nm r fuel vs st tr v w,
      regLookup reg k (nm.getD "default") = some r → r.lifecycle = .singleton →
      rootResolveTuple fuel reg fresh [(k, nm), (k, nm)] = (.ok vs, st, tr) →
      vs = [v, w] → v.truthy = true → w = v) ∧
    (∀ reg fresh k nm r fuel v st1 tr1,
      regLookup reg k (nm.getD "default") = some r → r.lifecycle = .singleton →
      resolveF fuel (initCtx reg fresh) k nm = (.ok v, st1, tr1) → v.truthy = true →
      ∀ m, rootResolve (m + 1 + 1 + 1) st1.registry st1.fresh k nm =
        (.ok v, initCtx st1.registry st1.fresh, [.resRet k (nm.getD "default")])) := by
  constructor
  · intro reg fresh k nm r fuel vs st tr v w hr hl htup hvs hv
    exact tuple_second_same hr (Or.inl hl) htup hvs hv
  · intro reg fresh k nm r fuel v st1 tr1 hr hl h1 hv m
    obtain ⟨-, hsing⟩ := root_resolve_saved hr (Or.inl hl) h1 hv
    obtain ⟨r2, hr2, hinst⟩ := hsing hl
    have hfil : r2.instVal.filter Value.truthy = some v := by
      rw [hinst]
      simp [Option.filter, hv]
    exact root_resolve_instance_hit hr2 hfil st1.fresh m

/-- Singleton example registry for the C3 witness. -/
def c3reg : RegMap :=
  [("S", [{ name := "default", instVal := none, factory := some .retFresh,
            lifecycle := .singleton }])]

theorem C3_singleton_idempotent_witness :
    (rootResolveTuple 8 c3reg 0 [("S", none), ("S", none)]).1 =
      .ok [Value.vObj 0, Value.vObj 0] ∧ (Value.vObj 0 : Value) = .vObj 0 :=
  ⟨rfl, C3_singleton_idempotent.1 c3reg 0 "S" none
    { name := "default", instVal := none, factory := some .retFresh,
      lifecycle := .singleton }
    8 [Value.vObj 0, Value.vObj 0]
    (rootResolveTuple 8 c3reg 0 [("S", none), ("S", none)]).2.1
    (rootResolveTuple 8 c3reg 0 [("S", none), ("S", none)]).2.2
    (Value.vObj 0) (Value.vObj 0) rfl rfl rfl rfl rfl⟩

/-- C7: for a `(key, name)` registered with `request` lifecycle, every
resolution within a single root resolution call yields the identical value
(second tuple component equals the first), while two separate root calls
yield distinct values: for a factory terminating in a fresh allocation, the
second root call's value is a different object and its trace again contains
the factory-invocation event. -/
theorem C7_request_scope :
    (∀ reg fresh k nm r fuel vs st tr v w,
      regLookup reg k (nm.getD "default") = some r → r.lifecycle = .request →
      rootResolveTuple fuel reg fresh [(k, nm), (k, nm)] = (.ok vs, st, tr) →
      vs = [v, w] → v.truthy = true → w = v) ∧
    (∀ reg fresh k nm r f fuel fuel2 v1 st1 tr1 v2 st2 tr2,
      regLookup reg k (nm.getD "default") = some r → r.lifecycle = .request →
      r.instVal = none → r.factory = some f → f.terminalFresh = true →
      resolveF fuel (initCtx reg fresh) k nm = (.ok v1, st1, tr1) →
      resolveF fuel2 (initCtx st1.registry st1.fresh) k nm = (.ok v2, st2, tr2) →
      v1 ≠ v2 ∧ Event.facStart k (nm.getD "default") ∈ tr2) := by
  constructor
  · intro reg fresh k nm r fuel vs st tr v w hr hl htup hvs hv
    exact tuple_second_same hr (Or.inr hl) htup hvs hv
  · intro reg fresh k nm r f fuel fuel2 v1 st1 tr1 v2 st2 tr2 hr hl hinst hf hterm h1 h2
    have hfil : r.instVal.filter Value.truthy = none := by rw [hinst]; rfl
    obtain ⟨⟨m1, hv1, hm1a, hm1b⟩, -⟩ :=
      root_resolve_factory_fresh hr hl hfil hf hterm h1
    have hrp := resolveF_regPres fuel (initCtx reg fresh) k nm
    rw [h1] at hrp
    have hr2 : regLookup st1.registry k (nm.getD "default") = some r :=
      hrp.2 k (nm.getD "default") r hr (by rw [hl]; intro hcon; cases hcon)
    obtain ⟨⟨m2, hv2, hm2a, hm2b⟩, hfs⟩ :=
      root_resolve_factory_fresh hr2 hl hfil hf hterm h2
    refine ⟨?_, hfs⟩
    intro heq
    rw [hv1, hv2] at heq
    injection heq with h
    omega

/-- Request example registry for the C7 witness. -/
def c7reg : RegMap :=
  [("R", [{ name := "default", instVal := none, factory := some .retFresh,
            lifecycle := .request }])]

/-- First root resolve of `R` on `c7reg`. -/
def c7call1 : Res := resolveF 8 (initCtx c7reg 0) "R" none

/-- Second root resolve of `R`, over the state left by the first. -/
def c7call2 : Res := resolveF 8 (initCtx c7call1.2.1.registry c7call1.2.1.fresh) "R" none

theorem C7_request_scope_witness :
    Value.vObj 0 ≠ Value.vObj 1 ∧ Event.facStart "R" "default" ∈ c7call2.2.2 :=
  C7_request_scope.2 c7reg 0 "R" none
    { name := "default", instVal := none, factory := some .retFresh,
      lifecycle := .request }
    .retFresh 8 8 (Value.vObj 0) c7call1.2.1 c7call1.2.2
    (Value.vObj 1) c7call2.2.1 c7call2.2.2
    rfl rfl rfl rfl rfl rfl rfl

/-- C9: the already-materialized-instance check is truthiness-based. A
registration whose stored `instance` is falsy and that has no factory makes
`resolve` throw the `TypeError` "Service ... has neither instance, nor
factory." instead of returning the stored value; whenever the stored
`instance` is not truthy and a factory is present, a root `resolve` invokes
the factory (the trace begins with the factory-invocation event); and a
`singleton` factory returning a falsy constant leaves exactly that falsy
value in the registration's `instance` slot after a successful call, so by
the previous part every subsequent root resolution re-invokes the factory
instead of using the cache. -/
theorem C9_truthiness_gate :
    (∀ reg k nm r v, regLookup reg k (nm.getD "default") = some r →
      r.instVal = some v → v.truthy = false → r.factory = none →
      ∀ fresh m, rootResolve (m + 1 + 1 + 1) reg fresh k nm =
        (.err (.typeError ("Service \"" ++ stringifyServiceKey k ++
          "\" has neither instance, nor factory.")), initCtx reg fresh, [])) ∧
    (∀ reg fresh k nm r f m, regLookup reg k (nm.getD "default") = some r →
      r.instVal.filter Value.truthy = none → r.factory = some f →
      ((rootResolve (m + 1 + 1 + 1 + 1) reg fresh k nm).2.2).head? =
        some (.facStart k (nm.getD "default"))) ∧
    (∀ reg fresh k nm r c m, regLookup reg k (nm.getD "default") = some r →
      r.lifecycle = .singleton → r.instVal.filter Value.truthy = none →
      r.factory = some (.retConst c) → c.truthy = false →
      ∃ st1, resolveF (m + 1 + 1 + 1 + 1 + 1) (initCtx reg fresh) k nm =
        (.ok c, st1, [.facStart k (nm.getD "default"), .facRet k (nm.getD "default"),
          .resRet k (nm.getD "default")]) ∧
        regLookup st1.registry k (nm.getD "default") =
          some { r with instVal := some c } ∧
        ({ r with instVal := some c } : Registration).instVal.filter Value.truthy
          = none) := by
  refine ⟨?_, ?_, ?_⟩
  · intro reg k nm r v hr hinst hv hfac fresh m
    have hfil : r.instVal.filter Value.truthy = none := by
      rw [hinst]
      simp [Option.filter, hv]
    unfold rootResolve
    simp only [resolveF, initCtx, List.nil_append]
    simp only [doResolveF]
    rw [show findInResolved ([] : ResolvedMap) k (nm.getD "default") = none from rfl]
    dsimp only
    simp only [resolveRegisteredF]
    rw [getServiceRegistration_of_regLookup hr]
    dsimp only
    rw [hfil]
    dsimp only
    rw [hfac]
    dsimp only
    rfl
  · intro reg fresh k nm r f m hr hfil hf
    unfold rootResolve
    simp only [resolveF, initCtx, List.nil_append]
    simp only [doResolveF]
    rw [show findInResolved ([] : ResolvedMap) k (nm.getD "default") = none from rfl]
    dsimp only
    simp only [resolveRegisteredF]
    rw [getServiceRegistration_of_regLookup hr]
    dsimp only
    rw [hfil]
    dsimp only
    rw [hf]
    dsimp only
    simp only [resolveWithErrorHandlingF]
    rw [checkForCircularDependency_singleton]
    dsimp only
    rcases hP : runFProgF m ⟨reg, [], [⟨k, nm.getD "default"⟩], [], fresh⟩ f
      with ⟨oP, stP, trP⟩
    cases oP with
    | ok w =>
      dsimp only
      repeat' split
      all_goals simp
    | err e =>
      dsimp only
      cases he : e.isSRE with
      | true => simp only [he, if_true]; rfl
      | false => simp only [he, Bool.false_eq_true, if_false]; rfl
    | timeout => rfl
  · intro reg fresh k nm r c m hr hl hfil hf hc
    refine ⟨⟨setRegistryInstance reg k (nm.getD "default") c,
      saveInResolved [] k c (nm.getD "default"), [], [], fresh⟩, ?_, ?_, ?_⟩
    · simp only [resolveF, initCtx, List.nil_append]
      simp only [doResolveF]
      rw [show findInResolved ([] : ResolvedMap) k (nm.getD "default") = none from rfl]
      dsimp only
      simp only [resolveRegisteredF]
      rw [getServiceRegistration_of_regLookup hr]
      dsimp only
      rw [hfil]
      dsimp only
      rw [hf]
      dsimp only
      simp only [resolveWithErrorHandlingF]
      rw [checkForCircularDependency_singleton]
      dsimp only
      simp only [runFProgF]
      rw [hl]
      simp only [show ((Lifecycle.singleton == Lifecycle.singleton ||
        Lifecycle.singleton == Lifecycle.request) = true) = True by simp, if_true,
        show ((Lifecycle.singleton == Lifecycle.singleton) = true) = True by simp]
      simp only [executeDelayedF]
      rfl
    · exact regLookup_setRegistryInstance_same hr c
    · simp [Option.filter, hc]

/-- Example registry for the C9 witness: `F` has only a falsy stored
instance, `G` is a singleton whose factory returns the falsy `false` and
whose stored instance is the falsy empty string. -/
def c9reg : RegMap :=
  [("F", [{ name := "default", instVal := some (.vNum 0), factory := none,
            lifecycle := .transient }]),
   ("G", [{ name := "default", instVal := some (.vStr ""),
            factory := some (.retConst (.vBool false)), lifecycle := .singleton }])]

theorem C9_truthiness_gate_witness :
    (rootResolve 3 c9reg 0 "F" none =
      (.err (.typeError ("Service \"" ++ stringifyServiceKey "F" ++
        "\" has neither instance, nor factory.")), initCtx c9reg 0, [])) ∧
    ((rootResolve 4 c9reg 0 "G" none).2.2).head? =
      some (.facStart "G" "default") ∧
    (∃ st1, resolveF 5 (initCtx c9reg 0) "G" none =
      (.ok (.vBool false), st1,
        [.facStart "G" "default", .facRet "G" "default", .resRet "G" "default"]) ∧
      regLookup st1.registry "G" "default" =
        some { name := "default", instVal := some (.vBool false),
               factory := some (.retConst (.vBool false)), lifecycle := .singleton } ∧
      ({ name := "default", instVal := some (.vBool false),
         factory := some (.retConst (.vBool false)),
         lifecycle := .singleton } : Registration).instVal.filter Value.truthy = none) :=
  ⟨C9_truthiness_gate.1 c9reg "F" none
      { name := "default", instVal := some (.vNum 0), factory := none,
        lifecycle := .transient } (.vNum 0) rfl rfl rfl rfl 0 0,
   C9_truthiness_gate.2.1 c9reg 0 "G" none
      { name := "default", instVal := some (.vStr ""),
        factory := some (.retConst (.vBool false)), lifecycle := .singleton }
      (.retConst (.vBool false)) 0 rfl rfl rfl,
   C9_truthiness_gate.2.2 c9reg 0 "G" none
      { name := "default", instVal := some (.vStr ""),
        factory := some (.retConst (.vBool false)), lifecycle := .singleton }
      (.vBool false) 0 rfl rfl rfl rfl rfl⟩

/-- C4: an error thrown during a resolve call by a user factory (or a nested
resolution inside it) is caught at that frame and re-thrown as a
`ServiceResolutionError` whose message names the failing `(key, name)`,
which carries the resolution-path stack at the point of failure and the
original error as `cause` — unless the error already is a
`ServiceResolutionError`, which is re-thrown unchanged; consequently, when
no user program of the context throws an SRE of its own, every error
escaping `resolve` is wrapped exactly once (its cause is never an SRE). -/
theorem C4_error_wrapping :
    (∀ fuel st k n f e st2 tr,
      checkForCircularDependency st.resolutionStack = none →
      runFProgF fuel st f = (.err e, st2, tr) → e.isSRE = false →
      resolveWithErrorHandlingF (fuel + 1) st k n f =
        (.err (.resolutionError (factoryErrMsg k n) st2.resolutionStack e), st2,
          .facStart k n :: tr) ∧
      st2.resolutionStack = st.resolutionStack) ∧
    (∀ fuel st k n f e st2 tr,
      checkForCircularDependency st.resolutionStack = none →
      runFProgF fuel st f = (.err e, st2, tr) → e.isSRE = true →
      resolveWithErrorHandlingF (fuel + 1) st k n f = (.err e, st2, .facStart k n :: tr)) ∧
    (∀ fuel st key nameArg e st2 tr, StNoSRE st →
      resolveF fuel st key nameArg = (.err e, st2, tr) → wrappedOnce e) := by
  refine ⟨?_, ?_, ?_⟩
  · intro fuel st k n f e st2 tr hc hrun hsre
    constructor
    · simp only [resolveWithErrorHandlingF]
      rw [hc]
      dsimp only
      rw [hrun]
      dsimp only
      rw [hsre]
      simp only [Bool.false_eq_true, if_false]
    · have hs := ((stateBundle fuel).2.2.2.2.1 st f).2.2
      rw [hrun] at hs
      exact hs (by intro hcon; cases hcon)
  · intro fuel st k n f e st2 tr hc hrun hsre
    simp only [resolveWithErrorHandlingF]
    rw [hc]
    dsimp only
    rw [hrun]
    dsimp only
    rw [hsre]
    simp only [if_true]
  · intro fuel st key nameArg e st2 tr hS h
    have hE := (((noSREBundle fuel).1 st key nameArg) hS).1 e
    rw [h] at hE
    exact hE rfl

/-- State for the C4 witness: one entry already pushed onto the resolution
stack, as inside a `resolve` frame. -/
def c4st : St := ⟨[], [], [⟨"A", "default"⟩], [], 0⟩

/-- Registry for the C4 witness: `A`'s factory throws a plain user error. -/
def c4reg : RegMap :=
  [("A", [{ name := "default", instVal := none,
            factory := some (.throwE (.userError 7)), lifecycle := .transient }])]

theorem C4_error_wrapping_witness :
    (resolveWithErrorHandlingF 2 c4st "A" "default" (.throwE (.userError 7)) =
      (.err (.resolutionError (factoryErrMsg "A" "default") c4st.resolutionStack
        (.userError 7)), c4st, [.facStart "A" "default"]) ∧
      c4st.resolutionStack = c4st.resolutionStack) ∧
    (resolveWithErrorHandlingF 2 c4st "B" "default"
        (.throwE (.resolutionError "m" [] (.userError 1))) =
      (.err (.resolutionError "m" [] (.userError 1)), c4st, [.facStart "B" "default"])) ∧
    wrappedOnce (.resolutionError (factoryErrMsg "A" "default")
      [⟨"A", "default"⟩] (.userError 7)) := by
  refine ⟨?_, ?_, ?_⟩
  · exact C4_error_wrapping.1 1 c4st "A" "default" (.throwE (.userError 7))
      (.userError 7) c4st [] rfl rfl rfl
  · exact C4_error_wrapping.2.1 1 c4st "B" "default"
      (.throwE (.resolutionError "m" [] (.userError 1)))
      (.resolutionError "m" [] (.userError 1)) c4st [] rfl rfl rfl
  · refine C4_error_wrapping.2.2 5 (initCtx c4reg 0) "A" none
      (.resolutionError (factoryErrMsg "A" "default") [⟨"A", "default"⟩] (.userError 7))
      (resolveF 5 (initCtx c4reg 0) "A" none).2.1
      (resolveF 5 (initCtx c4reg 0) "A" none).2.2 ⟨?_, ?_⟩ rfl
    · intro p hp r hrr f hf
      rcases List.mem_singleton.mp hp with rfl
      rcases List.mem_singleton.mp hrr with rfl
      injection hf with hf
      rw [← hf]
      rfl
    · intro p hp
      cases hp

/-- C1: cycle detection, run immediately before any factory invocation,
computes exactly the specified algorithm over the stringified key+name
path: with the just-pushed entry removed as `current`, find the first index
of `current` in the remaining path; absent → no error; otherwise take the
segment from that index to the end; odd length → no error; otherwise a
CircularDependency error exactly when the two equal halves coincide
element-wise. A detected cycle is reported as a wrapped error from the
frame without running the factory (empty trace), and when no cycle is
detected the factory is invoked (the frame's trace begins with the
factory-invocation event). -/
theorem C1_cycle_detection :
    (∀ stack : List NamedKey,
      (checkForCircularDependency stack).isSome =
        circularCheckSpec (stack.map stringifyEntry)) ∧
    (∀ fuel st k n f e,
      checkForCircularDependency st.resolutionStack = some e →
      resolveWithErrorHandlingF (fuel + 1) st k n f =
        (.err (.resolutionError (factoryErrMsg k n) st.resolutionStack e), st, [])) ∧
    (∀ fuel st k n f,
      checkForCircularDependency st.resolutionStack = none →
      ∃ rest, (resolveWithErrorHandlingF (fuel + 1) st k n f).2.2 =
        .facStart k n :: rest) := by
  refine ⟨?_, ?_, ?_⟩
  · intro stack
    unfold checkForCircularDependency circularCheckSpec
    cases hL : (stack.map stringifyEntry).getLast? with
    | none => simp [hL]
    | some current =>
      have hcur : (current == "") = false := by
        obtain ⟨e, hee, heq⟩ := List.mem_map.mp (List.mem_of_mem_getLast? hL)
        rw [← heq]
        exact stringifyEntry_ne_empty e
      simp only [hL, hcur, Bool.false_eq_true, if_false]
      cases hF : ((stack.map stringifyEntry).dropLast).findIdx? (fun s => s == current) with
      | none => simp [hF]
      | some i =>
        simp only [hF]
        cases hP : ((((stack.map stringifyEntry).dropLast).drop i).length % 2 == 1) with
        | true => simp [hP]
        | false =>
          simp only [hP, Bool.false_eq_true, if_false]
          generalize ((stack.map stringifyEntry).dropLast).drop i = L
          cases hEq : (L.drop (L.length / 2) == L.take (L.length / 2)) with
          | true =>
            simp only [hEq, if_true, Option.isSome_some]
            exact (beq_iff_eq.mpr (beq_iff_eq.mp hEq).symm).symm
          | false =>
            simp only [hEq, Bool.false_eq_true, if_false, Option.isSome_none]
            exact (beq_eq_false_iff_ne.mpr (Ne.symm (beq_eq_false_iff_ne.mp hEq))).symm
  · intro fuel st k n f e hc
    simp only [resolveWithErrorHandlingF]
    rw [hc]
  · intro fuel st k n f hc
    simp only [resolveWithErrorHandlingF]
    rw [hc]
    dsimp only
    rcases hP : runFProgF fuel st f with ⟨oP, stP, trP⟩
    cases oP with
    | ok v => exact ⟨trP ++ [.facRet k n], rfl⟩
    | err e2 =>
      cases he : e2.isSRE with
      | true => simp only [he, if_true]; exact ⟨trP, rfl⟩
      | false => simp only [he, Bool.false_eq_true, if_false]; exact ⟨trP, rfl⟩
    | timeout => exact ⟨trP, rfl⟩

/-- A stack whose stringified path ends in a repeated two-entry pattern —
a detected cycle. -/
def c1stack : List NamedKey :=
  [⟨"A", "x"⟩, ⟨"B", "y"⟩, ⟨"A", "x"⟩, ⟨"B", "y"⟩, ⟨"A", "x"⟩]

/-- Context state carrying the cyclic stack. -/
def c1stc : St := ⟨[], [], c1stack, [], 0⟩

/-- Context state carrying a cycle-free stack. -/
def c1stn : St := ⟨[], [], [⟨"A", "x"⟩], [], 0⟩

theorem C1_cycle_detection_witness :
    ((checkForCircularDependency c1stack).isSome =
      circularCheckSpec (c1stack.map stringifyEntry)) ∧
    (resolveWithErrorHandlingF 3 c1stc "A" "x" .retFresh =
      (.err (.resolutionError (factoryErrMsg "A" "x") c1stc.resolutionStack
        ((checkForCircularDependency c1stack).getD (.userError 0))), c1stc, [])) ∧
    (∃ rest, (resolveWithErrorHandlingF 3 c1stn "A" "x" .retFresh).2.2 =
      .facStart "A" "x" :: rest) :=
  ⟨C1_cycle_detection.1 c1stack,
   C1_cycle_detection.2.1 2 c1stc "A" "x" .retFresh
     ((checkForCircularDependency c1stack).getD (.userError 0)) (by rfl),
   C1_cycle_detection.2.2 2 c1stn "A" "x" .retFresh (by rfl)⟩

/-- Copies are structural identities: `copyRegistration` rebuilds the same
record. -/
theorem copyRegistry_id (registry : RegMap) : copyRegistry registry = registry := by
  unfold copyRegistry
  rw [show copyRegistration = fun r => r from funext fun r => rfl]
  simp

theorem withRegistry_snapshots (c : Container) (reg : RegMap) :
    (c.withRegistry reg).snapshots = c.snapshots := by
  cases c <;> rfl

theorem withRegistry_registry (c : Container) (reg : RegMap) :
    (c.withRegistry reg).registry = reg := by
  cases c <;> rfl

/-- Registration mutations never touch the snapshot stack. -/
theorem applyOp_snapshots (c : Container) (op : MutOp) :
    (applyOp c op).snapshots = c.snapshots := by
  cases op with
  | regConst key service options =>
    simp only [applyOp, Container.registerConstant]
    cases hro : registerOnRegistry c.registry key (some service) none options with
    | ok reg2 => simp [Except.map, withRegistry_snapshots]
    | error e => simp [Except.map]
  | regFactory key factory options =>
    simp only [applyOp, Container.registerFactory]
    cases hro : registerOnRegistry c.registry key none (some factory) options with
    | ok reg2 => simp [Except.map, withRegistry_snapshots]
    | error e => simp [Except.map]
  | unreg key name cascade => cases c <;> rfl

theorem applyOps_snapshots (ops : List MutOp) (c : Container) :
    (applyOps ops c).snapshots = c.snapshots := by
  induction ops generalizing c with
  | nil => rfl
  | cons op rest ih =>
    simp only [applyOps, List.foldl_cons]
    exact (ih (applyOp c op)).trans (applyOp_snapshots c op)

theorem backup_registry (c : Container) : (c.backup false).registry = c.registry := by
  cases c <;> simp [Container.backup, Container.registry, copyRegistry_id]

theorem backup_snapshots (c : Container) :
    (c.backup false).snapshots = c.snapshots ++ [c.registry] := by
  cases c <;> simp [Container.backup, Container.snapshots, Container.registry]

/-- `backup`, arbitrary registration mutations, `restore` round-trips the own
registry and the snapshot stack. -/
theorem backup_mut_restore (c : Container) (ops : List MutOp) :
    ((applyOps ops (c.backup false)).restore false).registry = c.registry ∧
    ((applyOps ops (c.backup false)).restore false).snapshots = c.snapshots := by
  have hsn : (applyOps ops (c.backup false)).snapshots = c.snapshots ++ [c.registry] :=
    (applyOps_snapshots ops (c.backup false)).trans (backup_snapshots c)
  cases hX : applyOps ops (c.backup false) with
  | root r s =>
    rw [hX] at hsn
    have hs : s = c.snapshots ++ [c.registry] := hsn
    subst hs
    constructor
    · simp [Container.restore, Container.registry, List.getLast?_concat]
    · simp [Container.restore, Container.snapshots, List.getLast?_concat,
        List.dropLast_concat]
  | child r s p =>
    rw [hX] at hsn
    have hs : s = c.snapshots ++ [c.registry] := hsn
    subst hs
    constructor
    · simp [Container.restore, Container.registry, List.getLast?_concat]
    · simp [Container.restore, Container.snapshots, List.getLast?_concat,
        List.dropLast_concat]

/-- C6: `backup()` followed by arbitrary registration mutations (constant or
factory registrations, including failed duplicate ones, and
unregistrations) followed by `restore()` returns the container's own
registrations and its snapshot stack to their state at `backup()` time; the
stack is LIFO, so a nested inner backup/restore pair undoes exactly the
inner backup's changes while the outer round-trip still restores the outer
state; and `restore()` with an empty snapshot stack is a no-op. -/
theorem C6_backup_restore :
    (∀ (c : Container) (ops : List MutOp),
      ((applyOps ops (c.backup false)).restore false).registry = c.registry ∧
      ((applyOps ops (c.backup false)).restore false).snapshots = c.snapshots) ∧
    (∀ (c : Container) (ops1 ops2 : List MutOp),
      ((applyOps ops2 ((applyOps ops1 (c.backup false)).backup false)).restore
          false).registry = (applyOps ops1 (c.backup false)).registry ∧
      ((applyOps ops2 ((applyOps ops1 (c.backup false)).backup false)).restore
          false).snapshots = (applyOps ops1 (c.backup false)).snapshots) ∧
    (∀ c : Container, c.snapshots = [] → c.restore false = c) := by
  refine ⟨backup_mut_restore, ?_, ?_⟩
  · intro c ops1 ops2
    exact backup_mut_restore (applyOps ops1 (c.backup false)) ops2
  · intro c hc
    cases c with
    | root r s =>
      have hs : s = [] := hc
      subst hs
      rfl
    | child r s p =>
      have hs : s = [] := hc
      subst hs
      rfl

/-- Container for the C6 witness. -/
def c6c : Container :=
  Container.root
    [("A", [{ name := "default", instVal := some (.vObj 7), factory := none,
              lifecycle := .transient }])] []

/-- Mutations for the C6 witness: add a constant, then unregister `A`. -/
def c6ops : List MutOp :=
  [MutOp.regConst "B" (.vObj 1) RegOptions.none, MutOp.unreg "A" Option.none false]

theorem C6_backup_restore_witness :
    (((applyOps c6ops (c6c.backup false)).restore false).registry = c6c.registry ∧
     ((applyOps c6ops (c6c.backup false)).restore false).snapshots = c6c.snapshots) ∧
    Container.empty.restore false = Container.empty :=
  ⟨C6_backup_restore.1 c6c c6ops, C6_backup_restore.2.2 Container.empty rfl⟩

/-! ## The merged registry of a child container (C5) -/

/-- Replacing a registration in place leaves the name sequence unchanged. -/
theorem replaceFirst_names (p : List Registration) (q : Registration) :
    (replaceFirstByName p q).map Registration.name = p.map Registration.name := by
  induction p with
  | nil => rfl
  | cons r rest ih =>
    unfold replaceFirstByName
    cases hb : (r.name == q.name) with
    | true => simp [List.map_cons, beq_iff_eq.mp hb]
    | false => simp [List.map_cons, hb, ih]

/-- Name-based `any` only depends on the name sequence. -/
theorem any_name_eq {p p2 : List Registration}
    (h : p.map Registration.name = p2.map Registration.name) (s : String) :
    p.any (fun r => r.name == s) = p2.any (fun r => r.name == s) := by
  have h1 : ∀ l : List Registration,
      l.any (fun r => r.name == s) = (l.map Registration.name).any (fun t => t == s) := by
    intro l
    induction l with
    | nil => rfl
    | cons x xs ih => simp [List.any_cons, List.map_cons, ih]
  rw [h1, h1, h]

theorem find?_none_of_all_false {o : List Registration} {s : String}
    (h : ∀ x ∈ o, (x.name == s) = false) :
    o.find? (fun x => x.name == s) = none :=
  List.find?_eq_none.mpr (by intro x hx; simp [h x hx])

/-- Mapping the lookup-or-keep function over an in-place replacement equals
mapping the extended lookup over the original list (nodup names). -/
theorem map_getD_replaceFirst {p : List Registration} {q : Registration}
    {o2 : List Registration}
    (hp : (p.map Registration.name).Nodup)
    (hfo : o2.find? (fun x => x.name == q.name) = none) :
    (replaceFirstByName p q).map
        (fun r => ((o2.find? (fun x => x.name == r.name)).getD r)) =
      p.map (fun r => (((q :: o2).find? (fun x => x.name == r.name)).getD r)) := by
  induction p with
  | nil => rfl
  | cons r rest ih =>
    have hrestnd : (rest.map Registration.name).Nodup := by
      simp only [List.map_cons, List.nodup_cons] at hp
      exact hp.2
    have hrnotin : r.name ∉ rest.map Registration.name := by
      simp only [List.map_cons, List.nodup_cons] at hp
      exact hp.1
    unfold replaceFirstByName
    cases hb : (r.name == q.name) with
    | true =>
      have hrq : r.name = q.name := beq_iff_eq.mp hb
      simp only [hb, if_true]
      rw [List.map_cons, List.map_cons]
      congr 1
      · rw [hfo, List.find?_cons_of_pos _ (by simp [hrq])]
        rfl
      · apply List.map_congr_left
        intro x hx
        have hxq : (q.name == x.name) = false := by
          rw [beq_eq_false_iff_ne]
          intro hh
          exact hrnotin (by rw [hrq, hh]; exact List.mem_map_of_mem _ hx)
        rw [List.find?_cons_of_neg _ (by simp [hxq])]
    | false =>
      simp only [hb, Bool.false_eq_true, if_false]
      rw [List.map_cons, List.map_cons]
      congr 1
      · have hqr : (q.name == r.name) = false := by
          rw [beq_eq_false_iff_ne]
          intro hh
          rw [beq_eq_false_iff_ne] at hb
          exact hb hh.symm
        rw [List.find?_cons_of_neg _ (by simp [hqr])]
      · exact ih hrestnd

/-- Mapping the lookup-or-keep function over an appended registration equals
mapping the extended lookup over the original list, with the new entry kept
at the end. -/
theorem map_getD_append {p : List Registration} {q : Registration}
    {o2 : List Registration}
    (hA : p.any (fun r => r.name == q.name) = false)
    (hfo : o2.find? (fun x => x.name == q.name) = none) :
    (p ++ [q]).map (fun r => ((o2.find? (fun x => x.name == r.name)).getD r)) =
      p.map (fun r => (((q :: o2).find? (fun x => x.name == r.name)).getD r)) ++ [q] := by
  rw [List.map_append]
  congr 1
  · apply List.map_congr_left
    intro x hx
    have hxq : (q.name == x.name) = false := by
      rw [beq_eq_false_iff_ne]
      intro hh
      exact (List.any_eq_false.mp hA) x hx (by simp [hh.symm])
    rw [List.find?_cons_of_neg _ (by simp [hxq])]
  · simp [hfo]

/-- `mergeRegistrations` characterized: the parent's list with every
name-clash replaced in place by the child's registration of the same name
(parent order preserved), followed by the child-only registrations in child
order. -/
theorem mergeRegistrations_eq (o : List Registration) :
    ∀ p : List Registration,
      (p.map Registration.name).Nodup → (o.map Registration.name).Nodup →
      mergeRegistrations p o =
        p.map (fun r => ((o.find? (fun q2 => q2.name == r.name)).getD r)) ++
        o.filter (fun q2 => !(p.any (fun r => r.name == q2.name))) := by
  induction o with
  | nil =>
    intro p hp ho
    simp [mergeRegistrations]
  | cons q o2 ih =>
    intro p hp ho
    have ho2 : (o2.map Registration.name).Nodup := by
      simp only [List.map_cons, List.nodup_cons] at ho
      exact ho.2
    have hqn : q.name ∉ o2.map Registration.name := by
      simp only [List.map_cons, List.nodup_cons] at ho
      exact ho.1
    have hqo2 : ∀ x ∈ o2, (x.name == q.name) = false := by
      intro x hx
      rw [beq_eq_false_iff_ne]
      intro hh
      exact hqn (by rw [← hh]; exact List.mem_map_of_mem _ hx)
    have hfo : o2.find? (fun x => x.name == q.name) = none :=
      find?_none_of_all_false hqo2
    have hstep : mergeRegistrations p (q :: o2) =
        mergeRegistrations
          (if p.any (fun r => r.name == q.name) then replaceFirstByName p q
           else p ++ [q]) o2 := by
      simp [mergeRegistrations, List.foldl_cons]
    rw [hstep]
    cases hA : p.any (fun r => r.name == q.name) with
    | true =>
      rw [if_pos rfl]
      rw [ih (replaceFirstByName p q) (by rw [replaceFirst_names]; exact hp) ho2]
      congr 1
      · exact map_getD_replaceFirst hp hfo
      · rw [List.filter_cons_of_neg (by simp [hA])]
        apply List.filter_congr
        intro x hx
        rw [any_name_eq (replaceFirst_names p q) x.name]
    | false =>
      rw [if_neg (by simp)]
      have hpq : ((p ++ [q]).map Registration.name).Nodup := by
        rw [List.map_append, List.nodup_append]
        refine ⟨hp, List.nodup_singleton _, ?_⟩
        intro a ha hb2
        rw [List.map_singleton, List.mem_singleton] at hb2
        subst hb2
        obtain ⟨r, hr, hrn⟩ := List.mem_map.mp ha
        exact (List.any_eq_false.mp hA) r hr (by simp [hrn])
      rw [ih (p ++ [q]) hpq ho2]
      rw [map_getD_append hA hfo]
      rw [List.filter_cons_of_pos (by simp [hA])]
      rw [List.append_assoc, List.singleton_append]
      congr 2
      apply List.filter_congr
      intro x hx
      have hxq : (q.name == x.name) = false := by
        rw [beq_eq_false_iff_ne]
        intro hh
        exact beq_eq_false_iff_ne.mp (hqo2 x hx) hh.symm
      rw [List.any_append]
      simp [List.any_cons, hxq]

theorem mem_dedup_foldl (x : String) :
    ∀ (ks acc : List String),
      (x ∈ ks.foldl (fun a k => if a.contains k then a else a ++ [k]) acc ↔
        x ∈ acc ∨ x ∈ ks) := by
  intro ks
  induction ks with
  | nil => intro acc; simp
  | cons k ks2 ih =>
    intro acc
    simp only [List.foldl_cons]
    cases hc : acc.contains k with
    | true =>
      rw [if_pos rfl]
      rw [ih acc]
      constructor
      · rintro (h | h)
        · exact Or.inl h
        · exact Or.inr (List.mem_cons_of_mem _ h)
      · rintro (h | h)
        · exact Or.inl h
        · rcases List.mem_cons.mp h with rfl | h2
          · exact Or.inl (List.mem_of_elem_eq_true hc)
          · exact Or.inr h2
    | false =>
      rw [if_neg (by simp)]
      rw [ih (acc ++ [k])]
      simp only [List.mem_append, List.mem_singleton, List.mem_cons]
      tauto

/-- `dedupKeys` preserves membership. -/
theorem mem_dedupKeys {ks : List String} {x : String} :
    x ∈ dedupKeys ks ↔ x ∈ ks := by
  unfold dedupKeys
  rw [mem_dedup_foldl x ks []]
  simp

theorem RegMap.get_append_some {m1 m2 : RegMap} {key : String}
    {v : List Registration} (h : RegMap.get m1 key = some v) :
    RegMap.get (m1 ++ m2) key = some v := by
  unfold RegMap.get at h ⊢
  cases hf : m1.find? (fun p2 => p2.1 == key) with
  | none => rw [hf] at h; simp at h
  | some pr =>
    rw [hf] at h
    rw [List.find?_append, hf]
    exact h

theorem RegMap.get_append_single_same {m : RegMap} {key : String}
    (h : RegMap.get m key = none) (e : List Registration) :
    RegMap.get (m ++ [(key, e)]) key = some e := by
  unfold RegMap.get at h ⊢
  cases hf : m.find? (fun p2 => p2.1 == key) with
  | none =>
    rw [List.find?_append, hf]
    simp [List.find?]
  | some pr => rw [hf] at h; simp at h

theorem RegMap.get_append_single_ne {m : RegMap} {key k : String}
    (h : k ≠ key) (e : List Registration) :
    RegMap.get (m ++ [(k, e)]) key = RegMap.get m key := by
  unfold RegMap.get
  rw [List.find?_append]
  have : List.find? (fun p2 => p2.1 == key) [(k, e)] = none := by
    simp [List.find?, beq_eq_false_iff_ne.mpr h]
  rw [this]
  cases m.find? (fun p2 => p2.1 == key) <;> rfl

theorem RegMap.get_some_mem_keys {m : RegMap} {key : String}
    {v : List Registration} (h : RegMap.get m key = some v) :
    key ∈ m.map (fun q2 => q2.1) := by
  unfold RegMap.get at h
  cases hf : m.find? (fun p2 => p2.1 == key) with
  | none => rw [hf] at h; simp at h
  | some pr =>
    have hm := List.mem_of_find?_eq_some hf
    have hcond := List.find?_some hf
    rw [← beq_iff_eq.mp hcond]
    exact List.mem_map_of_mem _ hm

/-- One step of the per-key merge fold of `getMergedRegistry`. -/
def mergeFoldStep (par own : RegMap) (result : RegMap) (serviceKey : String) : RegMap :=
  match RegMap.get par serviceKey, RegMap.get own serviceKey with
  | Option.none, some o2 => result ++ [(serviceKey, o2)]
  | some p2, Option.none => result ++ [(serviceKey, p2)]
  | some p2, some o2 => result ++ [(serviceKey, mergeRegistrations p2 o2)]
  | Option.none, Option.none => result

/-- `getMergedRegistry` of a child is the key fold of `mergeFoldStep`. -/
theorem getMergedRegistry_child (r : RegMap) (s : List RegMap) (p : Container) :
    (Container.child r s p).getMergedRegistry =
      (dedupKeys ((p.getMergedRegistry.map (fun q2 => q2.1)) ++
        (r.map (fun q2 => q2.1)))).foldl (mergeFoldStep p.getMergedRegistry r) [] := by
  simp only [Container.getMergedRegistry]
  rfl

theorem mergeFold_get_stable (par own : RegMap) (key : String)
    (v : List Registration) :
    ∀ (ks : List String) (acc : RegMap), RegMap.get acc key = some v →
      RegMap.get (ks.foldl (mergeFoldStep par own) acc) key = some v := by
  intro ks
  induction ks with
  | nil => intro acc h; exact h
  | cons k ks2 ih =>
    intro acc h
    simp only [List.foldl_cons]
    apply ih
    unfold mergeFoldStep
    cases RegMap.get par k <;> cases RegMap.get own k <;>
      first
        | exact h
        | exact RegMap.get_append_some h

theorem mergeFold_get_hit (par own : RegMap) (key : String)
    {pv ov : List Registration}
    (hp : RegMap.get par key = some pv) (ho : RegMap.get own key = some ov) :
    ∀ (ks : List String) (acc : RegMap), key ∈ ks → RegMap.get acc key = none →
      RegMap.get (ks.foldl (mergeFoldStep par own) acc) key =
        some (mergeRegistrations pv ov) := by
  intro ks
  induction ks with
  | nil => intro acc hks; cases hks
  | cons k ks2 ih =>
    intro acc hks hacc
    simp only [List.foldl_cons]
    by_cases hk : k = key
    · subst hk
      have hstep : mergeFoldStep par own acc k =
          acc ++ [(k, mergeRegistrations pv ov)] := by
        unfold mergeFoldStep
        rw [hp, ho]
      rw [hstep]
      exact mergeFold_get_stable par own k _ ks2 _
        (RegMap.get_append_single_same hacc _)
    · have hpres : RegMap.get (mergeFoldStep par own acc k) key = none := by
        unfold mergeFoldStep
        cases RegMap.get par k <;> cases RegMap.get own k <;>
          first
            | exact hacc
            | (rw [RegMap.get_append_single_ne hk]; exact hacc)
      rcases List.mem_cons.mp hks with rfl | hks2
      · exact absurd rfl hk
      · exact ih _ hks2 hpres

/-- C5: for a container with a parent, the merged registration list of a key
is the parent's list with every registration whose name also occurs in the
child's own list replaced in place (parent positional order preserved) and
every child-only name appended at the end (`mergeRegistrations`
characterization, and `getMergedRegistry` computes exactly that merge for a
key present in both registries); registering on the child never alters the
parent container. -/
theorem C5_merged_registry :
    (∀ p o : List Registration,
      (p.map Registration.name).Nodup → (o.map Registration.name).Nodup →
      mergeRegistrations p o =
        p.map (fun r => ((o.find? (fun q2 => q2.name == r.name)).getD r)) ++
        o.filter (fun q2 => !(p.any (fun r => r.name == q2.name)))) ∧
    (∀ (r : RegMap) (s : List RegMap) (pc : Container) (key : String)
        (parRegs ownRegs : List Registration),
      RegMap.get pc.getMergedRegistry key = some parRegs →
      RegMap.get r key = some ownRegs →
      RegMap.get (Container.child r s pc).getMergedRegistry key =
        some (mergeRegistrations parRegs ownRegs)) ∧
    (∀ (r : RegMap) (s : List RegMap) (pc : Container) (key : String)
        (v : Value) (opts : RegOptions) (c2 : Container),
      Container.registerConstant (.child r s pc) key v opts = .ok c2 →
      c2.getParent = some pc) := by
  refine ⟨fun p o hp ho => mergeRegistrations_eq o p hp ho, ?_, ?_⟩
  · intro r s pc key parRegs ownRegs hp ho
    rw [getMergedRegistry_child]
    apply mergeFold_get_hit pc.getMergedRegistry r key hp ho
    · rw [mem_dedupKeys]
      exact List.mem_append.mpr (Or.inl (RegMap.get_some_mem_keys hp))
    · rfl
  · intro r s pc key v opts c2 h
    simp only [Container.registerConstant, Container.registry] at h
    cases hro : registerOnRegistry r key (some v) Option.none opts with
    | ok reg2 =>
      rw [hro] at h
      simp only [Except.map] at h
      injection h with h
      rw [← h]
      rfl
    | error e =>
      rw [hro] at h
      simp [Except.map] at h

/-- Parent-side registrations for the C5 witness (names `a`, `b`). -/
def c5p : List Registration :=
  [{ name := "a", instVal := some (.vObj 1), factory := none, lifecycle := .transient },
   { name := "b", instVal := some (.vObj 2), factory := none, lifecycle := .transient }]

/-- Child-side registrations for the C5 witness (names `b`, `c`). -/
def c5o : List Registration :=
  [{ name := "b", instVal := some (.vObj 3), factory := none, lifecycle := .transient },
   { name := "c", instVal := some (.vObj 4), factory := none, lifecycle := .transient }]

/-- Parent container of the C5 witness. -/
def c5parent : Container := Container.root [("S", c5p)] []

theorem C5_merged_registry_witness :
    (mergeRegistrations c5p c5o =
      c5p.map (fun r => ((c5o.find? (fun q2 => q2.name == r.name)).getD r)) ++
      c5o.filter (fun q2 => !(c5p.any (fun r => r.name == q2.name)))) ∧
    (RegMap.get (Container.child [("S", c5o)] [] c5parent).getMergedRegistry "S" =
      some (mergeRegistrations c5p c5o)) ∧
    (Container.child [("S", c5o),
      ("x", [{ name := "default", instVal := some (.vObj 9), factory := none,
               lifecycle := .transient }])] [] c5parent).getParent = some c5parent :=
  ⟨C5_merged_registry.1 c5p c5o (by decide) (by decide),
   C5_merged_registry.2.1 [("S", c5o)] [] c5parent "S" c5p c5o rfl rfl,
   C5_merged_registry.2.2 [("S", c5o)] [] c5parent "x" (.vObj 9) RegOptions.none
     (Container.child [("S", c5o),
       ("x", [{ name := "default", instVal := some (.vObj 9), factory := none,
                lifecycle := .transient }])] [] c5parent) rfl⟩

/-- C10: name defaulting at registration is falsy-based while resolution
defaults only an omitted name: registering a (truthy) constant under the
empty-string name stores the registration under `"default"`, and afterwards
`resolve(key)` and `resolve(key, "default")` return it, while
`resolve(key, "")` throws the NotFound `RangeError` naming the empty
name. -/
theorem C10_empty_name_defaulting :
    ∀ (k : String) (v : Value) (opts : RegOptions) (c2 : Container),
      opts.name = some "" → v.truthy = true →
      Container.registerConstant Container.empty k v opts = .ok c2 →
      (regLookup c2.registry k "default" =
        some { name := "default", instVal := some v, factory := none,
               lifecycle := opts.lifecycle.getD .transient }) ∧
      (∀ m fresh, rootResolve (m + 1 + 1 + 1) c2.registry fresh k Option.none =
        (.ok v, initCtx c2.registry fresh, [.resRet k "default"])) ∧
      (∀ m fresh, rootResolve (m + 1 + 1 + 1) c2.registry fresh k (some "default") =
        (.ok v, initCtx c2.registry fresh, [.resRet k "default"])) ∧
      (∀ m fresh, rootResolve (m + 1 + 1 + 1) c2.registry fresh k (some "") =
        (.err (.rangeError ("Service \"" ++ stringifyServiceKey k ++
          "\", named \"\" is not found.")), initCtx c2.registry fresh, [])) := by
  intro k v opts c2 hname hv hreg
  have hjs : jsNameOrDefault opts.name = "default" := by
    rw [hname]
    rfl
  have hc2 : c2.registry =
      [(k, [{ name := "default", instVal := some v, factory := none,
              lifecycle := opts.lifecycle.getD .transient }])] := by
    simp only [Container.registerConstant, Container.empty, Container.registry,
      registerOnRegistry, createRegistration, hjs] at hreg
    rw [show RegMap.get [] k = none from rfl] at hreg
    simp only [RegMap.set, List.any_nil, Bool.false_eq_true, if_false,
      List.nil_append, Except.map] at hreg
    injection hreg with hreg
    rw [← hreg]
    rfl
  have hr : regLookup c2.registry k "default" =
      some { name := "default", instVal := some v, factory := none,
             lifecycle := opts.lifecycle.getD .transient } := by
    rw [hc2]
    unfold regLookup RegMap.get
    simp [List.find?]
  refine ⟨hr, ?_, ?_, ?_⟩
  · intro m fresh
    exact root_resolve_instance_hit hr (by simp [Option.filter, hv]) fresh m
  · intro m fresh
    exact root_resolve_instance_hit hr (by simp [Option.filter, hv]) fresh m
  · intro m fresh
    have hgs : getServiceRegistration c2.registry k "" =
        .error (.rangeError ("Service \"" ++ stringifyServiceKey k ++
          "\", named \"\" is not found.")) := by
      rw [hc2]
      unfold getServiceRegistration RegMap.get
      simp [List.find?]
      rw [String.append_assoc, show ("\", named \"" : String) ++ "\" is not found." =
        "\", named \"\" is not found." from rfl]
    unfold rootResolve
    simp only [resolveF, initCtx, List.nil_append, Option.getD_some]
    simp only [doResolveF]
    rw [show findInResolved ([] : ResolvedMap) k "" = none from rfl]
    dsimp only
    simp only [resolveRegisteredF]
    rw [hgs]
    dsimp only
    rfl

/-- Registered under the empty-string name for the C10 witness. -/
def c10opts : RegOptions := { name := some "", lifecycle := Option.none, replace := false }

/-- The container produced by registering `"S"` with name `""`. -/
def c10c : Container :=
  Container.root
    [("S", [{ name := "default", instVal := some (.vObj 3), factory := none,
              lifecycle := .transient }])] []

theorem C10_empty_name_defaulting_witness :
    (regLookup c10c.registry "S" "default" =
      some { name := "default", instVal := some (.vObj 3), factory := none,
             lifecycle := c10opts.lifecycle.getD .transient }) ∧
    (∀ m fresh, rootResolve (m + 1 + 1 + 1) c10c.registry fresh "S" Option.none =
      (.ok (.vObj 3), initCtx c10c.registry fresh, [.resRet "S" "default"])) ∧
    (∀ m fresh, rootResolve (m + 1 + 1 + 1) c10c.registry fresh "S" (some "default") =
      (.ok (.vObj 3), initCtx c10c.registry fresh, [.resRet "S" "default"])) ∧
    (∀ m fresh, rootResolve (m + 1 + 1 + 1) c10c.registry fresh "S" (some "") =
      (.err (.rangeError ("Service \"" ++ stringifyServiceKey "S" ++
        "\", named \"\" is not found.")), initCtx c10c.registry fresh, [])) :=
  C10_empty_name_defaulting "S" (.vObj 3) c10opts c10c rfl rfl (by rfl)

end DiContainer